import Mathlib

/-!
Verification of the height-field collision shape specification.

The height-field engine stores an N×N grid of height samples, quantized
per block of B×B samples at a global bit width, with a reserved
"no collision" sentinel.  Heights are modelled as exact rationals (`ℚ`)
and the sentinel as `Option.none`, so that a sample grid is a function
`ℕ → ℕ → Option ℚ`.  All definitions are modelled from the spec
(sections 3, 4.1-4.6, 6) since only the unit tests of the engine are in
the repository snapshot; doc comments record the spec section each
definition follows.
-/

namespace HeightField

/-- Modelled from the spec (§4.1 Quantizer): the worst-case absolute
reconstruction error for a block of range `[mn, mx]` packed at `bits`
bits per sample: `0.5 * (mx - mn) / (2^bits - 1)`, with `bits = 0` or a
degenerate range giving zero error. -/
def maxError (mn mx : ℚ) (bits : ℕ) : ℚ :=
  if bits = 0 ∨ mn = mx then 0 else (mx - mn) / (2 * (2 ^ bits - 1))

/-- Modelled from the spec (§4.1 Quantizer): map a height linearly into
`[0, 2^bits - 1]`, rounding to nearest representable code; a degenerate
range maps every value to code 0 without division by zero. -/
def quantize (h mn mx : ℚ) (bits : ℕ) : ℕ :=
  if mx ≤ mn then 0
  else min (2 ^ bits - 1) (round ((h - mn) / (mx - mn) * (2 ^ bits - 1))).toNat

/-- Modelled from the spec (§4.1 Quantizer): inverse linear map; for
`bits = 0` or a degenerate range always returns `mn`. -/
def dequantize (code : ℕ) (mn mx : ℚ) (bits : ℕ) : ℚ :=
  if bits = 0 ∨ mx ≤ mn then mn
  else mn + (code : ℚ) * (mx - mn) / (2 ^ bits - 1)

/-- Modelled from the spec (§4.1 Quantizer): smallest `bits ∈ [1, 8]`
such that `maxError mn mx bits ≤ tolerance`, clamped to the maximum of
8 bits; a degenerate range yields 1, never 0. -/
def minBitsForError (mn mx tol : ℚ) : ℕ :=
  if maxError mn mx 1 ≤ tol then 1
  else if maxError mn mx 2 ≤ tol then 2
  else if maxError mn mx 3 ≤ tol then 3
  else if maxError mn mx 4 ≤ tol then 4
  else if maxError mn mx 5 ≤ tol then 5
  else if maxError mn mx 6 ≤ tol then 6
  else if maxError mn mx 7 ≤ tol then 7
  else 8

/-- The `(minimum, maximum)` of a list of rationals, or `none` for the
empty list.  Used for block and grid height ranges (spec §3 Block). -/
def listRange : List ℚ → Option (ℚ × ℚ)
  | [] => none
  | v :: l =>
    match listRange l with
    | none => some (v, v)
    | some (mn, mx) => some (min v mn, max v mx)

/-- Modelled from the spec (§6 External Interfaces): the construction
settings consumed by the height field.  Heights are `Option ℚ`, with
`none` standing for the reserved no-collision sentinel; material
handles are opaque and represented by naturals. -/
structure ShapeSettings where
  sampleCount : ℕ
  blockSize : ℕ
  bitsPerSample : ℕ
  offset : ℚ × ℚ × ℚ
  scale : ℚ × ℚ × ℚ
  heightSamples : List (Option ℚ)
  materials : List ℕ
  materialIndices : List ℕ

/-- The raw input sample at grid coordinate `(x, y)` (row-major,
spec §6). -/
def ShapeSettings.sampleAt (s : ShapeSettings) (x y : ℕ) : Option ℚ :=
  s.heightSamples.getD (y * s.sampleCount + x) none

/-- The `[min, max]` range over all non-hole input samples of the grid,
or `none` for a fully-hole grid (spec §4.3 build). -/
def ShapeSettings.gridRange (s : ShapeSettings) : Option (ℚ × ℚ) :=
  listRange (s.heightSamples.filterMap id)

/-- Modelled from the spec (§6, §4.1 `min_bits_for_error`): the
pre-construction sizing helper `calculate_bits_for_error`: the smallest
bit width whose worst-case error over the full observed grid range is
within the tolerance; 1 for a flat or fully-hole grid. -/
def ShapeSettings.CalculateBitsPerSampleForError (s : ShapeSettings) (tol : ℚ) : ℕ :=
  match s.gridRange with
  | none => 1
  | some (mn, mx) => minBitsForError mn mx tol

theorem calcBits_eq_some {s : ShapeSettings} {mn mx : ℚ}
    (hg : s.gridRange = some (mn, mx)) (tol : ℚ) :
    s.CalculateBitsPerSampleForError tol = minBitsForError mn mx tol := by
  unfold ShapeSettings.CalculateBitsPerSampleForError
  rw [hg]

theorem calcBits_eq_none {s : ShapeSettings} (hg : s.gridRange = none) (tol : ℚ) :
    s.CalculateBitsPerSampleForError tol = 1 := by
  unfold ShapeSettings.CalculateBitsPerSampleForError
  rw [hg]

theorem minBitsForError_pos (mn mx tol : ℚ) : 0 < minBitsForError mn mx tol := by
  unfold minBitsForError
  split_ifs <;> norm_num

theorem calculateBits_pos (s : ShapeSettings) (tol : ℚ) :
    0 < s.CalculateBitsPerSampleForError tol := by
  unfold ShapeSettings.CalculateBitsPerSampleForError
  cases h : s.gridRange with
  | none => norm_num
  | some r => exact minBitsForError_pos r.1 r.2 tol

theorem maxError_nonneg {mn mx : ℚ} (h : mn ≤ mx) (bits : ℕ) : 0 ≤ maxError mn mx bits := by
  unfold maxError
  split_ifs with hd
  · exact le_refl 0
  · push_neg at hd
    have hb : (0 : ℚ) < 2 ^ bits - 1 := by
      have h1 : (1 : ℚ) < 2 ^ bits := by
        have : bits ≠ 0 := hd.1
        have : 1 ≤ bits := Nat.one_le_iff_ne_zero.mpr this
        calc (1 : ℚ) < 2 ^ 1 := by norm_num
        _ ≤ 2 ^ bits := by
            apply pow_le_pow_right₀ (by norm_num) this
      linarith
    have hmm : mn < mx := lt_of_le_of_ne h hd.2
    apply div_nonneg <;> linarith

theorem listRange_eq_none {l : List ℚ} : listRange l = none ↔ l = [] := by
  cases l with
  | nil => simp [listRange]
  | cons a l =>
    unfold listRange
    cases listRange l <;> simp

theorem listRange_mem_bounds {l : List ℚ} {mn mx : ℚ} (h : listRange l = some (mn, mx)) :
    ∀ v ∈ l, mn ≤ v ∧ v ≤ mx := by
  induction l generalizing mn mx with
  | nil => simp [listRange] at h
  | cons a l ih =>
    intro v hv
    rcases List.mem_cons.mp hv with rfl | hvl
    · unfold listRange at h
      cases hr : listRange l with
      | none => rw [hr] at h; simp at h; exact ⟨le_of_eq h.1.symm, le_of_eq h.2⟩
      | some p =>
        rw [hr] at h
        simp at h
        obtain ⟨h1, h2⟩ := h
        constructor
        · rw [← h1]; exact min_le_left _ _
        · rw [← h2]; exact le_max_left _ _
    · unfold listRange at h
      cases hr : listRange l with
      | none =>
        have : l = [] := listRange_eq_none.mp hr
        subst this; simp at hvl
      | some p =>
        rw [hr] at h
        simp at h
        obtain ⟨h1, h2⟩ := h
        have := ih (show listRange l = some (p.1, p.2) from by rw [hr]) v hvl
        constructor
        · rw [← h1]; exact le_trans (min_le_right _ _) this.1
        · rw [← h2]; exact le_trans this.2 (le_max_right _ _)

theorem listRange_isSome_of_mem {l : List ℚ} {v : ℚ} (h : v ∈ l) :
    ∃ mn mx, listRange l = some (mn, mx) := by
  cases l with
  | nil => simp at h
  | cons a l =>
    unfold listRange
    cases listRange l with
    | none => exact ⟨a, a, rfl⟩
    | some p => exact ⟨_, _, rfl⟩

theorem listRange_mem_self {l : List ℚ} {mn mx : ℚ} (h : listRange l = some (mn, mx)) :
    mn ∈ l ∧ mx ∈ l := by
  induction l generalizing mn mx with
  | nil => simp [listRange] at h
  | cons a l ih =>
    unfold listRange at h
    cases hr : listRange l with
    | none =>
      rw [hr] at h
      simp at h
      simp [h.1.symm, h.2.symm]
    | some p =>
      rw [hr] at h
      simp at h
      obtain ⟨h1, h2⟩ := h
      have hm := ih (show listRange l = some (p.1, p.2) from by rw [hr])
      constructor
      · rcases min_choice a p.1 with hc | hc
        · rw [← h1, hc]; exact List.mem_cons_self a l
        · rw [← h1, hc]; exact List.mem_cons_of_mem a hm.1
      · rcases max_choice a p.2 with hc | hc
        · rw [← h2, hc]; exact List.mem_cons_self a l
        · rw [← h2, hc]; exact List.mem_cons_of_mem a hm.2

theorem listRange_le {l : List ℚ} {mn mx : ℚ} (h : listRange l = some (mn, mx)) :
    mn ≤ mx := by
  exact (listRange_mem_bounds h mn (listRange_mem_self h).1).2

theorem two_pow_sub_one_pos {bits : ℕ} (hb : 1 ≤ bits) : (0 : ℚ) < 2 ^ bits - 1 := by
  have h1 : (2 : ℚ) ^ 1 ≤ 2 ^ bits := pow_le_pow_right₀ (by norm_num) hb
  norm_num at h1
  linarith

/-- The quantizer contract (spec §3 Block invariant): decoding any
stored code with the block's range reproduces the original height
within `maxError` of that range and bit width. -/
theorem dequantize_quantize {h mn mx : ℚ} {bits : ℕ} (hb : 1 ≤ bits)
    (h1 : mn ≤ h) (h2 : h ≤ mx) :
    |dequantize (quantize h mn mx bits) mn mx bits - h| ≤ maxError mn mx bits := by
  rcases eq_or_lt_of_le (le_trans h1 h2) with heq | hlt
  · -- degenerate range: everything is exact
    have hx : h = mn := le_antisymm (heq ▸ h2) h1
    have : mx ≤ mn := le_of_eq heq.symm
    simp [dequantize, quantize, maxError, this, hx, heq]
  · -- non-degenerate range
    have hM : (0 : ℚ) < 2 ^ bits - 1 := two_pow_sub_one_pos hb
    have hne : ¬ mx ≤ mn := not_le.mpr hlt
    set M : ℚ := 2 ^ bits - 1 with hMdef
    set z : ℚ := (h - mn) / (mx - mn) * M with hz
    have hz0 : 0 ≤ z := by
      apply mul_nonneg (div_nonneg (by linarith) (by linarith)) (by linarith)
    have hzM : z ≤ M := by
      have ht1 : (h - mn) / (mx - mn) ≤ 1 := by
        rw [div_le_one (by linarith)]
        linarith
      calc z = (h - mn) / (mx - mn) * M := hz
      _ ≤ 1 * M := by
          apply mul_le_mul_of_nonneg_right ht1 (by linarith)
      _ = M := one_mul M
    -- the rounded code needs no clamping
    have hr0 : 0 ≤ round z := by
      rw [round_eq]
      apply Int.floor_nonneg.mpr
      linarith
    have hrM : (round z : ℚ) ≤ M := by
      have : round z ≤ round M := by
        rw [round_eq, round_eq]
        apply Int.floor_le_floor
        linarith
      have hMr : round M = 2 ^ bits - 1 := by
        have : M = ((2 ^ bits - 1 : ℤ) : ℚ) := by
          push_cast
          rw [hMdef]
        rw [this, round_intCast]
      calc (round z : ℚ) ≤ (round M : ℚ) := by exact_mod_cast this
      _ = ((2 ^ bits - 1 : ℤ) : ℚ) := by rw [hMr]
      _ = M := by push_cast; rw [hMdef]
    have hd0 : mx - mn ≠ 0 := by linarith
    have hMne : M ≠ 0 := ne_of_gt hM
    have hfrac : (0 : ℚ) ≤ (mx - mn) / M := div_nonneg (by linarith) (le_of_lt hM)
    have hcode : ((quantize h mn mx bits : ℕ) : ℚ) = (round z : ℚ) := by
      unfold quantize
      rw [if_neg hne]
      have htn : ((round z).toNat : ℤ) = round z := Int.toNat_of_nonneg hr0
      have hle : (round z).toNat ≤ 2 ^ bits - 1 := by
        have hMn : ((2 ^ bits - 1 : ℕ) : ℚ) = M := by
          rw [Nat.cast_sub Nat.one_le_two_pow]
          push_cast
          rw [hMdef]
        have hq : ((round z).toNat : ℚ) ≤ ((2 ^ bits - 1 : ℕ) : ℚ) := by
          rw [hMn, show ((round z).toNat : ℚ) = ((round z : ℤ) : ℚ) from by exact_mod_cast htn]
          exact hrM
        exact_mod_cast hq
      rw [min_eq_right hle]
      exact_mod_cast htn
    unfold dequantize
    rw [if_neg (by push_neg; exact ⟨Nat.one_le_iff_ne_zero.mp hb, hlt⟩)]
    rw [hcode]
    have hdq : mn + (round z : ℚ) * (mx - mn) / M - h = ((round z : ℚ) - z) * ((mx - mn) / M) := by
      rw [hz]
      field_simp
      ring
    rw [hdq]
    have habs : |((round z : ℚ) - z) * ((mx - mn) / M)| = |(round z : ℚ) - z| * ((mx - mn) / M) := by
      rw [abs_mul, abs_of_nonneg hfrac]
    rw [habs]
    have hround : |(round z : ℚ) - z| ≤ 1 / 2 := by
      rw [abs_sub_comm]
      exact abs_sub_round z
    have hme : maxError mn mx bits = 1 / 2 * ((mx - mn) / M) := by
      unfold maxError
      rw [if_neg (by push_neg; exact ⟨Nat.one_le_iff_ne_zero.mp hb, ne_of_lt hlt⟩)]
      rw [hMdef]
      field_simp
    rw [hme]
    exact mul_le_mul_of_nonneg_right hround hfrac

/-- Monotonicity of `maxError` in the range: a sub-range gives a
smaller worst-case error at the same bit width. -/
theorem maxError_mono {gmn gmx mn mx : ℚ} (bits : ℕ)
    (h1 : gmn ≤ mn) (h2 : mn ≤ mx) (h3 : mx ≤ gmx) :
    maxError mn mx bits ≤ maxError gmn gmx bits := by
  unfold maxError
  split_ifs with ha hb hb
  · exact le_refl 0
  · -- inner range degenerate, outer not: outer error is nonnegative
    have hbits : 1 ≤ bits := Nat.one_le_iff_ne_zero.mpr (not_or.mp hb).1
    have hp := two_pow_sub_one_pos hbits
    apply div_nonneg <;> linarith
  · -- outer range degenerate forces the inner one degenerate too
    exfalso
    rcases hb with hb0 | hbe
    · exact (not_or.mp ha).1 hb0
    · exact (not_or.mp ha).2 (le_antisymm h2 (le_trans h3 (hbe ▸ h1)))
  · -- both non-degenerate
    have hbits : 1 ≤ bits := Nat.one_le_iff_ne_zero.mpr (not_or.mp ha).1
    have hM : (0 : ℚ) < 2 * (2 ^ bits - 1) := by
      have := two_pow_sub_one_pos hbits
      linarith
    exact (div_le_div_iff_of_pos_right hM).mpr (by linarith)

/-- Modelled from the spec (§4.2 Block Layout): the grid coordinates
covered by block index `b` along one axis.  A block's range covers its
own `B` samples plus the first sample row/column of the next block, so
that the quads straddling the block boundary are covered by the block's
cached `[min, max]` range. -/
def blockDomain (n B b : ℕ) : List ℕ :=
  (List.range n).filter fun x => b * B ≤ x ∧ x ≤ b * B + B

/-- All non-hole height values of grid `f` inside block `(bx, by)`
(spec §4.3: the values a block's `[min, max]` range is computed over). -/
def blockVals (n B : ℕ) (f : ℕ → ℕ → Option ℚ) (bx b_y : ℕ) : List ℚ :=
  (blockDomain n B bx).foldr
    (fun x acc => (blockDomain n B b_y).filterMap (f x) ++ acc) []

/-- Modelled from the spec (§3 Block): the `[min, max]` range of block
`(bx, by)` over grid `f`, `none` when the block is entirely holes. -/
def blockRange (n B : ℕ) (f : ℕ → ℕ → Option ℚ) (bx b_y : ℕ) : Option (ℚ × ℚ) :=
  listRange (blockVals n B f bx b_y)

theorem mem_blockDomain {n B b x : ℕ} :
    x ∈ blockDomain n B b ↔ x < n ∧ b * B ≤ x ∧ x ≤ b * B + B := by
  simp [blockDomain, List.mem_filter, List.mem_range, and_assoc]

/-- Every sample coordinate lies in the domain of its owner block. -/
theorem self_mem_blockDomain {n B x : ℕ} (hB : 0 < B) (hx : x < n) :
    x ∈ blockDomain n B (x / B) := by
  rw [mem_blockDomain]
  refine ⟨hx, Nat.div_mul_le_self x B, ?_⟩
  have h1 := Nat.div_add_mod x B
  have h2 := Nat.mod_lt x hB
  have h3 : x / B * B = B * (x / B) := Nat.mul_comm _ _
  omega

theorem mem_foldr_vals {Lx Ly : List ℕ} {f : ℕ → ℕ → Option ℚ} {x y : ℕ} {v : ℚ}
    (hx : x ∈ Lx) (hy : y ∈ Ly) (hv : f x y = some v) :
    v ∈ Lx.foldr (fun x acc => Ly.filterMap (f x) ++ acc) [] := by
  induction Lx with
  | nil => simp at hx
  | cons a l ih =>
    simp only [List.foldr_cons, List.mem_append]
    rcases List.mem_cons.mp hx with rfl | hxl
    · left
      rw [List.mem_filterMap]
      exact ⟨y, hy, hv⟩
    · right
      exact ih hxl

theorem foldr_vals_subset {Lx Ly : List ℕ} {f : ℕ → ℕ → Option ℚ} {v : ℚ}
    (hv : v ∈ Lx.foldr (fun x acc => Ly.filterMap (f x) ++ acc) []) :
    ∃ x y, x ∈ Lx ∧ y ∈ Ly ∧ f x y = some v := by
  induction Lx with
  | nil => simp at hv
  | cons a l ih =>
    simp only [List.foldr_cons, List.mem_append] at hv
    rcases hv with hv | hv
    · rw [List.mem_filterMap] at hv
      obtain ⟨y, hy, hfy⟩ := hv
      exact ⟨a, y, List.mem_cons_self a l, hy, hfy⟩
    · obtain ⟨x, y, hx, hy, hfy⟩ := ih hv
      exact ⟨x, y, List.mem_cons_of_mem a hx, hy, hfy⟩

theorem mem_blockVals {n B : ℕ} {f : ℕ → ℕ → Option ℚ} {bx b_y x y : ℕ} {v : ℚ}
    (hx : x ∈ blockDomain n B bx) (hy : y ∈ blockDomain n B b_y)
    (hv : f x y = some v) : v ∈ blockVals n B f bx b_y :=
  mem_foldr_vals hx hy hv

theorem blockVals_subset {n B : ℕ} {f : ℕ → ℕ → Option ℚ} {bx b_y : ℕ} {v : ℚ}
    (hv : v ∈ blockVals n B f bx b_y) :
    ∃ x y, x ∈ blockDomain n B bx ∧ y ∈ blockDomain n B b_y ∧ f x y = some v :=
  foldr_vals_subset hv

/-- Modelled from the spec (§2, §3): the constructed shape — the Height
Store (hole bitmap, per-block ranges, packed codes at a global bit
width) together with the Material Store (deduplicated handle list and
per-quad index grid) and the world transform. -/
structure Shape where
  n : ℕ
  B : ℕ
  bits : ℕ
  offset : ℚ × ℚ × ℚ
  scale : ℚ × ℚ × ℚ
  isHole : ℕ → ℕ → Bool
  rangeOf : ℕ → ℕ → Option (ℚ × ℚ)
  code : ℕ → ℕ → ℕ
  matList : List ℕ
  matIdx : ℕ → ℕ → ℕ

/-- Modelled from the spec (§4.3 build, §4.4 build): batch construction
of the shape from settings: hole bitmap from the sentinel, per-block
ranges over the raw samples, every non-hole sample quantized against
its owner block's range at the settings' bit width, and the material
list and per-quad indices stored as given (an omitted index grid means
index 0, the first material, everywhere). -/
def build (s : ShapeSettings) : Shape :=
  { n := s.sampleCount
    B := s.blockSize
    bits := s.bitsPerSample
    offset := s.offset
    scale := s.scale
    isHole := fun x y => (s.sampleAt x y).isNone
    rangeOf := fun bx b_y => blockRange s.sampleCount s.blockSize s.sampleAt bx b_y
    code := fun x y =>
      match s.sampleAt x y, blockRange s.sampleCount s.blockSize s.sampleAt (x / s.blockSize) (y / s.blockSize) with
      | some hval, some (mn, mx) => quantize hval mn mx s.bitsPerSample
      | _, _ => 0
    matList := s.materials
    matIdx := fun x y =>
      if s.materialIndices = [] then 0
      else s.materialIndices.getD (y * (s.sampleCount - 1) + x) 0 }

/-- Modelled from the spec (§4.3 get_heights, per sample): the decoded
height of sample `(x, y)` before the world transform: the sentinel
(`none`) at a hole, otherwise the sample's code dequantized with its
owner block's range at the global bit width. -/
def getHeightRaw (hf : Shape) (x y : ℕ) : Option ℚ :=
  if hf.isHole x y then none
  else
    match hf.rangeOf (x / hf.B) (y / hf.B) with
    | none => some 0
    | some (mn, mx) => some (dequantize (hf.code x y) mn mx hf.bits)

/-- Modelled from the spec (§6): `is_no_collision(x, y)`. -/
def Shape.IsNoCollision (hf : Shape) (x y : ℕ) : Bool :=
  hf.isHole x y

/-- Modelled from the spec (§6, §4.5): `get_position(x, y)`, the
world-space point `offset + scale * (x, height, y)` of a sample. -/
def Shape.GetPosition (hf : Shape) (x y : ℕ) : ℚ × ℚ × ℚ :=
  (hf.offset.1 + hf.scale.1 * x,
   hf.offset.2.1 + hf.scale.2.1 * (getHeightRaw hf x y).getD 0,
   hf.offset.2.2 + hf.scale.2.2 * y)

/-- Modelled from the spec (§4.3 get_heights): the decoded height
returned at offset `(i, j)` of the requested sub-rectangle
`(x0, y0, w, h)`; the spec defines the output per requested sample. -/
def Shape.GetHeights (hf : Shape) (x0 y0 w h i j : ℕ) : Option ℚ :=
  getHeightRaw hf (x0 + i) (y0 + j)

/-- The error bound implied by the tolerance handed to
`calculate_bits_for_error`: the worst-case quantization error of the
chosen bit width over the full grid range (spec §8, first property). -/
def errorBound (s : ShapeSettings) (tol : ℚ) : ℚ :=
  match s.gridRange with
  | none => 0
  | some (mn, mx) => maxError mn mx (s.CalculateBitsPerSampleForError tol)

/-- A non-hole sample at in-range coordinates belongs to the flattened
non-hole value list of the grid. -/
theorem sampleAt_mem_filterMap {s : ShapeSettings}
    (hlen : s.heightSamples.length = s.sampleCount * s.sampleCount)
    {x y : ℕ} (hx : x < s.sampleCount) (hy : y < s.sampleCount)
    {v : ℚ} (hv : s.sampleAt x y = some v) : v ∈ s.heightSamples.filterMap id := by
  have hidx : y * s.sampleCount + x < s.heightSamples.length := by
    rw [hlen]
    calc y * s.sampleCount + x < y * s.sampleCount + s.sampleCount := by omega
    _ = (y + 1) * s.sampleCount := by ring
    _ ≤ s.sampleCount * s.sampleCount := Nat.mul_le_mul_right _ hy
  unfold ShapeSettings.sampleAt at hv
  rw [List.getD_eq_getElem?_getD, List.getElem?_eq_getElem hidx] at hv
  simp only [Option.getD_some] at hv
  rw [List.mem_filterMap]
  exact ⟨some v, hv ▸ List.getElem_mem hidx, rfl⟩

/-- A block's `[min, max]` range is a sub-range of the full grid range. -/
theorem blockRange_sub_gridRange {s : ShapeSettings}
    (hlen : s.heightSamples.length = s.sampleCount * s.sampleCount)
    {bx b_y : ℕ} {mn mx gmn gmx : ℚ}
    (hb : blockRange s.sampleCount s.blockSize s.sampleAt bx b_y = some (mn, mx))
    (hg : s.gridRange = some (gmn, gmx)) : gmn ≤ mn ∧ mx ≤ gmx := by
  have hmem := listRange_mem_self hb
  constructor
  · obtain ⟨x, y, hxd, hyd, hv⟩ := blockVals_subset hmem.1
    have := sampleAt_mem_filterMap hlen (mem_blockDomain.mp hxd).1 (mem_blockDomain.mp hyd).1 hv
    exact (listRange_mem_bounds hg mn this).1
  · obtain ⟨x, y, hxd, hyd, hv⟩ := blockVals_subset hmem.2
    have := sampleAt_mem_filterMap hlen (mem_blockDomain.mp hxd).1 (mem_blockDomain.mp hyd).1 hv
    exact (listRange_mem_bounds hg mx this).2

/-- Decoding a freshly built non-hole sample: the owner block's range
brackets the input height and the decoded value is the round-trip of
the quantizer against that range. -/
theorem build_decode {s : ShapeSettings} (hB : 0 < s.blockSize)
    {x y : ℕ} (hx : x < s.sampleCount) (hy : y < s.sampleCount) {hval : ℚ}
    (hs : s.sampleAt x y = some hval) :
    ∃ mn mx, (build s).rangeOf (x / s.blockSize) (y / s.blockSize) = some (mn, mx)
      ∧ mn ≤ hval ∧ hval ≤ mx
      ∧ getHeightRaw (build s) x y =
          some (dequantize (quantize hval mn mx s.bitsPerSample) mn mx s.bitsPerSample) := by
  have hxd := self_mem_blockDomain (n := s.sampleCount) hB hx
  have hyd := self_mem_blockDomain (n := s.sampleCount) hB hy
  have hmem : hval ∈ blockVals s.sampleCount s.blockSize s.sampleAt (x / s.blockSize) (y / s.blockSize) :=
    mem_blockVals hxd hyd hs
  obtain ⟨mn, mx, hrange⟩ := listRange_isSome_of_mem hmem
  have hbounds := listRange_mem_bounds hrange hval hmem
  refine ⟨mn, mx, hrange, hbounds.1, hbounds.2, ?_⟩
  unfold getHeightRaw build
  simp only
  rw [hs]
  simp only [Option.isNone_some, Bool.false_eq_true, if_false]
  rw [show blockRange s.sampleCount s.blockSize s.sampleAt (x / s.blockSize) (y / s.blockSize)
      = some (mn, mx) from hrange]

/-- A grid whose non-hole samples all share one value has a degenerate
(or absent) grid range, so the implied error bound vanishes. -/
theorem errorBound_flat (s : ShapeSettings) (tol : ℚ) (c : ℚ)
    (hflat : ∀ v ∈ s.heightSamples, v = none ∨ v = some c) : errorBound s tol = 0 := by
  unfold errorBound
  cases hg : s.gridRange with
  | none => rfl
  | some p =>
    obtain ⟨mn, mx⟩ := p
    have hall : ∀ v ∈ s.heightSamples.filterMap id, v = c := by
      intro v hv
      rw [List.mem_filterMap] at hv
      obtain ⟨a, ha, hav⟩ := hv
      rcases hflat a ha with rfl | rfl
      · simp at hav
      · simp only [id] at hav
        exact (Option.some_inj.mp hav).symm
    have hmem := listRange_mem_self hg
    have hmn : mn = c := hall mn hmem.1
    have hmx : mx = c := hall mx hmem.2
    subst hmn hmx
    simp [maxError]

/-- C1: for every constructed shape: a hole sample decodes to the
sentinel with `is_no_collision` true; a non-hole sample decodes (via
`get_heights` and the height inside `get_position`) to within the
error bound implied by the tolerance passed to
`calculate_bits_for_error` (zero for a flat grid, hence exact
reproduction there); and `get_heights` on any sub-rectangle agrees
pointwise with the per-sample decode. -/
theorem getPosition_getHeights_error_bound (s : ShapeSettings) (tol : ℚ)
    (hlen : s.heightSamples.length = s.sampleCount * s.sampleCount)
    (hB : 0 < s.blockSize)
    (hbits : s.bitsPerSample = s.CalculateBitsPerSampleForError tol)
    (x y : ℕ) (hx : x < s.sampleCount) (hy : y < s.sampleCount) :
    (s.sampleAt x y = none → getHeightRaw (build s) x y = none
       ∧ (build s).IsNoCollision x y = true)
    ∧ (∀ hval : ℚ, s.sampleAt x y = some hval →
        (build s).IsNoCollision x y = false
        ∧ ∃ d : ℚ, getHeightRaw (build s) x y = some d
          ∧ |d - hval| ≤ errorBound s tol
          ∧ (build s).GetPosition x y =
              (s.offset.1 + s.scale.1 * x,
               s.offset.2.1 + s.scale.2.1 * d,
               s.offset.2.2 + s.scale.2.2 * y))
    ∧ (∀ c : ℚ, (∀ v ∈ s.heightSamples, v = none ∨ v = some c) → errorBound s tol = 0)
    ∧ (∀ x0 y0 w h i j : ℕ,
        (build s).GetHeights x0 y0 w h i j = getHeightRaw (build s) (x0 + i) (y0 + j)) := by
  refine ⟨?_, ?_, fun c hc => errorBound_flat s tol c hc, fun _ _ _ _ _ _ => rfl⟩
  · intro hnone
    constructor
    · unfold getHeightRaw build
      simp [hnone]
    · unfold Shape.IsNoCollision build
      simp [hnone]
  · intro hval hs
    have hbits1 : 1 ≤ s.bitsPerSample := by
      rw [hbits]; exact calculateBits_pos s tol
    obtain ⟨mn, mx, hrange, hlo, hhi, hdec⟩ := build_decode hB hx hy hs
    refine ⟨by unfold Shape.IsNoCollision build; simp [hs], ?_⟩
    refine ⟨dequantize (quantize hval mn mx s.bitsPerSample) mn mx s.bitsPerSample, hdec, ?_, ?_⟩
    · have herr := dequantize_quantize hbits1 hlo hhi
      have hgmem : hval ∈ s.heightSamples.filterMap id := sampleAt_mem_filterMap hlen hx hy hs
      obtain ⟨gmn, gmx, hg⟩ := listRange_isSome_of_mem hgmem
      have hsub := blockRange_sub_gridRange hlen hrange hg
      have hmono := maxError_mono s.bitsPerSample hsub.1 (le_trans hlo hhi) hsub.2
      have hEB : errorBound s tol = maxError gmn gmx s.bitsPerSample := by
        unfold errorBound
        rw [show s.gridRange = some (gmn, gmx) from hg, ← hbits]
      rw [hEB]
      exact le_trans herr hmono
    · unfold Shape.GetPosition
      rw [hdec]
      rfl

/-- Witness for C1 at a concrete flat 2×2 grid with one hole and zero
tolerance: reproduction is exact. -/
def c1Settings : ShapeSettings :=
  { sampleCount := 2
    blockSize := 1
    bitsPerSample := 1
    offset := (3, 5, 7)
    scale := (9, 13, 17)
    heightSamples := [some 1, some 1, none, some 1]
    materials := []
    materialIndices := [] }

theorem getPosition_error_bound_witness :
    c1Settings.heightSamples.length = c1Settings.sampleCount * c1Settings.sampleCount
    ∧ 0 < c1Settings.blockSize
    ∧ c1Settings.bitsPerSample = c1Settings.CalculateBitsPerSampleForError 0
    ∧ (0 : ℕ) < 2 ∧ (1 : ℕ) < 2
    ∧ ((c1Settings.sampleAt 0 1 = none → getHeightRaw (build c1Settings) 0 1 = none
          ∧ (build c1Settings).IsNoCollision 0 1 = true)
       ∧ (∀ hval : ℚ, c1Settings.sampleAt 0 1 = some hval →
          (build c1Settings).IsNoCollision 0 1 = false
          ∧ ∃ d : ℚ, getHeightRaw (build c1Settings) 0 1 = some d
            ∧ |d - hval| ≤ errorBound c1Settings 0
            ∧ (build c1Settings).GetPosition 0 1 =
                (c1Settings.offset.1 + c1Settings.scale.1 * 0,
                 c1Settings.offset.2.1 + c1Settings.scale.2.1 * d,
                 c1Settings.offset.2.2 + c1Settings.scale.2.2 * 1))
       ∧ (∀ c : ℚ, (∀ v ∈ c1Settings.heightSamples, v = none ∨ v = some c) →
            errorBound c1Settings 0 = 0)
       ∧ (∀ x0 y0 w h i j : ℕ,
            (build c1Settings).GetHeights x0 y0 w h i j
              = getHeightRaw (build c1Settings) (x0 + i) (y0 + j))) :=
  ⟨rfl, by norm_num [c1Settings], by decide, by norm_num, by norm_num,
   getPosition_getHeights_error_bound c1Settings 0 rfl (by norm_num [c1Settings]) (by decide)
     0 1 (by norm_num [c1Settings]) (by norm_num [c1Settings])⟩

/-- C7: `calculate_bits_for_error(0)` is exactly 1 on a perfectly flat
grid and on a fully-hole grid, and the helper never returns 0. -/
theorem calcBits_flat_hole_one (s : ShapeSettings) (tol : ℚ) :
    ((∃ c : ℚ, ∀ v ∈ s.heightSamples, v = some c) →
        s.CalculateBitsPerSampleForError 0 = 1)
    ∧ ((∀ v ∈ s.heightSamples, v = none) → s.CalculateBitsPerSampleForError 0 = 1)
    ∧ 0 < s.CalculateBitsPerSampleForError tol := by
  refine ⟨?_, ?_, calculateBits_pos s tol⟩
  · rintro ⟨c, hc⟩
    cases hg : s.gridRange with
    | none => exact calcBits_eq_none hg 0
    | some p =>
      obtain ⟨mn, mx⟩ := p
      rw [calcBits_eq_some hg 0]
      have hall : ∀ v ∈ s.heightSamples.filterMap id, v = c := by
        intro v hv
        rw [List.mem_filterMap] at hv
        obtain ⟨a, ha, hav⟩ := hv
        rw [hc a ha] at hav
        simp only [id] at hav
        exact (Option.some_inj.mp hav).symm
      have hmem := listRange_mem_self hg
      have hmn : mn = c := hall mn hmem.1
      have hmx : mx = c := hall mx hmem.2
      subst hmn
      subst hmx
      unfold minBitsForError
      rw [if_pos (by simp [maxError])]
  · intro hall
    apply calcBits_eq_none ?_ 0
    unfold ShapeSettings.gridRange
    have hnil : s.heightSamples.filterMap id = [] := by
      rw [List.filterMap_eq_nil_iff]
      intro a ha
      rw [hall a ha]
      rfl
    rw [hnil]
    rfl

/-- Witness for C7 on a concrete flat grid and a concrete all-hole
grid. -/
def c7FlatSettings : ShapeSettings :=
  { sampleCount := 2, blockSize := 1, bitsPerSample := 1, offset := (0, 0, 0),
    scale := (1, 1, 1), heightSamples := [some 5, some 5, some 5, some 5],
    materials := [], materialIndices := [] }

theorem calcBits_flat_hole_one_witness :
    (∃ c : ℚ, ∀ v ∈ c7FlatSettings.heightSamples, v = some c)
    ∧ c7FlatSettings.CalculateBitsPerSampleForError 0 = 1
    ∧ 0 < c7FlatSettings.CalculateBitsPerSampleForError 0 :=
  have hflat : ∃ c : ℚ, ∀ v ∈ c7FlatSettings.heightSamples, v = some c := ⟨5, by decide⟩
  ⟨hflat, (calcBits_flat_hole_one c7FlatSettings 0).1 hflat,
   (calcBits_flat_hole_one c7FlatSettings 0).2.2⟩

/-- C8: when the grid's observed range is `[mn, mx]`, sizing by the
worst-case error formula for `b` bits never yields more than `b` bits,
for every `b` in `[1, 8]`. -/
theorem minBitsForError_le {mn mx tol : ℚ} {b : ℕ} (hb1 : 1 ≤ b) (hb8 : b ≤ 8)
    (hcond : maxError mn mx b ≤ tol) : minBitsForError mn mx tol ≤ b := by
  unfold minBitsForError
  interval_cases b <;>
    split_ifs <;>
    first
      | omega
      | exact absurd hcond (by assumption)

theorem calcBits_le_target_bits (s : ShapeSettings) (mn mx : ℚ)
    (hr : s.gridRange = some (mn, mx)) (b : ℕ) (hb1 : 1 ≤ b) (hb8 : b ≤ 8) :
    s.CalculateBitsPerSampleForError (maxError mn mx b) ≤ b := by
  rw [calcBits_eq_some hr]
  exact minBitsForError_le hb1 hb8 (le_refl _)

/-- Witness for C8 at a concrete two-value grid and `b = 2`. -/
def c8Settings : ShapeSettings :=
  { sampleCount := 2, blockSize := 1, bitsPerSample := 8, offset := (0, 0, 0),
    scale := (1, 1, 1), heightSamples := [some 0, some 3, some 1, some 2],
    materials := [], materialIndices := [] }

theorem calcBits_le_target_bits_witness :
    c8Settings.gridRange = some (0, 3) ∧ (1 : ℕ) ≤ 2 ∧ (2 : ℕ) ≤ 8
    ∧ c8Settings.CalculateBitsPerSampleForError (maxError 0 3 2) ≤ 2 :=
  ⟨by decide, by norm_num, by norm_num,
   calcBits_le_target_bits c8Settings 0 3 (by decide) 2 (by norm_num) (by norm_num)⟩

/-- Membership in the rectangle `(x0, y0, w, h)`. -/
def insideRect (x0 y0 w h x y : ℕ) : Prop :=
  x0 ≤ x ∧ x < x0 + w ∧ y0 ≤ y ∧ y < y0 + h

instance (x0 y0 w h x y : ℕ) : Decidable (insideRect x0 y0 w h x y) := by
  unfold insideRect
  infer_instance

/-- Modelled from the spec (§4.3 set_heights): the logical sample grid
after an update of rectangle `(x0, y0, w, h)`: the written value
inside the rectangle (possibly the sentinel, toggling the hole
bitmap), and the currently decoded value elsewhere - re-quantization
of an affected block runs over decoded values, the raw originals being
gone. -/
def newValFn (hf : Shape) (x0 y0 w h : ℕ) (vals : ℕ → ℕ → Option ℚ) (x y : ℕ) : Option ℚ :=
  if (insideRect x0 y0 w h x y) then vals (x - x0) (y - y0) else getHeightRaw hf x y

/-- Modelled from the spec (§4.3 set_heights): block `(bx, by)` is
re-quantized when the rectangle overlaps the domain its cached range
covers - which extends one sample past the block's own tile, so blocks
one block-width before the rectangle's low edges are touched too. -/
def touchedBlock (n B x0 y0 w h bx b_y : ℕ) : Prop :=
  (∃ xi ∈ blockDomain n B bx, x0 ≤ xi ∧ xi < x0 + w)
    ∧ (∃ yi ∈ blockDomain n B b_y, y0 ≤ yi ∧ yi < y0 + h)

instance (n B x0 y0 w h bx b_y : ℕ) : Decidable (touchedBlock n B x0 y0 w h bx b_y) := by
  unfold touchedBlock
  infer_instance

/-- Modelled from the spec (§4.3 set_heights): overwrite the given
sub-rectangle, then re-quantize every touched block: recompute its
`[min, max]` over the new logical values and re-encode every sample it
owns against the new range.  Untouched blocks keep their stored bits. -/
def Shape.SetHeights (hf : Shape) (x0 y0 w h : ℕ) (vals : ℕ → ℕ → Option ℚ) : Shape :=
  { hf with
    isHole := fun x y =>
      if (touchedBlock hf.n hf.B x0 y0 w h (x / hf.B) (y / hf.B)) then
        (newValFn hf x0 y0 w h vals x y).isNone
      else hf.isHole x y
    rangeOf := fun bx b_y =>
      if (touchedBlock hf.n hf.B x0 y0 w h bx b_y) then
        blockRange hf.n hf.B (newValFn hf x0 y0 w h vals) bx b_y
      else hf.rangeOf bx b_y
    code := fun x y =>
      if (touchedBlock hf.n hf.B x0 y0 w h (x / hf.B) (y / hf.B)) then
        match newValFn hf x0 y0 w h vals x y,
            blockRange hf.n hf.B (newValFn hf x0 y0 w h vals) (x / hf.B) (y / hf.B) with
        | some v, some (mn, mx) => quantize v mn mx hf.bits
        | _, _ => 0
      else hf.code x y }

/-- A touched sample with a non-hole logical value decodes to the
quantizer round-trip of that value against its block's new range,
which brackets it. -/
theorem setHeights_decode {hf : Shape} {x0 y0 w h : ℕ} (vals : ℕ → ℕ → Option ℚ)
    {x y : ℕ} (hB : 0 < hf.B) (hx : x < hf.n) (hy : y < hf.n)
    (ht : touchedBlock hf.n hf.B x0 y0 w h (x / hf.B) (y / hf.B)) :
    (newValFn hf x0 y0 w h vals x y = none →
        getHeightRaw (hf.SetHeights x0 y0 w h vals) x y = none)
    ∧ (∀ v, newValFn hf x0 y0 w h vals x y = some v → ∃ mn mx,
        (hf.SetHeights x0 y0 w h vals).rangeOf (x / hf.B) (y / hf.B) = some (mn, mx)
        ∧ mn ≤ v ∧ v ≤ mx
        ∧ getHeightRaw (hf.SetHeights x0 y0 w h vals) x y
            = some (dequantize (quantize v mn mx hf.bits) mn mx hf.bits)) := by
  constructor
  · intro hnone
    unfold getHeightRaw Shape.SetHeights
    simp only [if_pos ht, hnone]
    rfl
  · intro v hv
    have hxd := self_mem_blockDomain (n := hf.n) hB hx
    have hyd := self_mem_blockDomain (n := hf.n) hB hy
    have hmem : v ∈ blockVals hf.n hf.B (newValFn hf x0 y0 w h vals) (x / hf.B) (y / hf.B) :=
      mem_blockVals hxd hyd hv
    obtain ⟨mn, mx, hrange⟩ := listRange_isSome_of_mem hmem
    have hbounds := listRange_mem_bounds hrange v hmem
    refine ⟨mn, mx, ?_, hbounds.1, hbounds.2, ?_⟩
    · unfold Shape.SetHeights
      simp only [if_pos ht]
      exact hrange
    · unfold getHeightRaw Shape.SetHeights
      simp only [if_pos ht, hv]
      rw [show blockRange hf.n hf.B (newValFn hf x0 y0 w h vals) (x / hf.B) (y / hf.B)
          = some (mn, mx) from hrange]
      simp only [Option.isNone_some, Bool.false_eq_true, if_false]

/-- A sample whose owner block is untouched keeps its stored bits and
decoded value. -/
theorem setHeights_untouched {hf : Shape} {x0 y0 w h : ℕ} (vals : ℕ → ℕ → Option ℚ)
    {x y : ℕ} (hnt : ¬ touchedBlock hf.n hf.B x0 y0 w h (x / hf.B) (y / hf.B)) :
    (hf.SetHeights x0 y0 w h vals).isHole x y = hf.isHole x y
    ∧ (hf.SetHeights x0 y0 w h vals).code x y = hf.code x y
    ∧ (hf.SetHeights x0 y0 w h vals).rangeOf (x / hf.B) (y / hf.B)
        = hf.rangeOf (x / hf.B) (y / hf.B)
    ∧ getHeightRaw (hf.SetHeights x0 y0 w h vals) x y = getHeightRaw hf x y := by
  have h1 : (hf.SetHeights x0 y0 w h vals).isHole x y = hf.isHole x y := by
    unfold Shape.SetHeights
    simp only [if_neg hnt]
  have h2 : (hf.SetHeights x0 y0 w h vals).code x y = hf.code x y := by
    unfold Shape.SetHeights
    simp only [if_neg hnt]
  have h3 : (hf.SetHeights x0 y0 w h vals).rangeOf (x / hf.B) (y / hf.B)
      = hf.rangeOf (x / hf.B) (y / hf.B) := by
    unfold Shape.SetHeights
    simp only [if_neg hnt]
  refine ⟨h1, h2, h3, ?_⟩
  unfold getHeightRaw
  rw [show (hf.SetHeights x0 y0 w h vals).B = hf.B from rfl,
    show (hf.SetHeights x0 y0 w h vals).bits = hf.bits from rfl, h1, h2, h3]

/-- A written sample's owner block is always touched. -/
theorem inside_touched {hf : Shape} {x0 y0 w h x y : ℕ} (hB : 0 < hf.B)
    (hx : x < hf.n) (hy : y < hf.n) (hin : insideRect x0 y0 w h x y) :
    touchedBlock hf.n hf.B x0 y0 w h (x / hf.B) (y / hf.B) := by
  obtain ⟨h1, h2, h3, h4⟩ := hin
  exact ⟨⟨x, self_mem_blockDomain hB hx, h1, h2⟩, ⟨y, self_mem_blockDomain hB hy, h3, h4⟩⟩

/-- C2: after `set_heights` on a rectangle: a sample inside it decodes
to the written value within its block's quantization tolerance, with
the sentinel passed through exactly for newly written holes; a sample
outside the rectangle whose block is touched stays within the block
tolerance of its previously decoded value (holes staying holes); and a
sample in an untouched block keeps its stored hole bit, code and block
range bit-for-bit, hence its decoded value. -/
theorem setHeights_spec (hf : Shape) (x0 y0 w h : ℕ) (vals : ℕ → ℕ → Option ℚ)
    (hB : 0 < hf.B) (hbits : 1 ≤ hf.bits)
    (x y : ℕ) (hx : x < hf.n) (hy : y < hf.n) :
    (insideRect x0 y0 w h x y →
       (vals (x - x0) (y - y0) = none →
          getHeightRaw (hf.SetHeights x0 y0 w h vals) x y = none)
       ∧ (∀ v, vals (x - x0) (y - y0) = some v → ∃ d mn mx,
            getHeightRaw (hf.SetHeights x0 y0 w h vals) x y = some d
            ∧ (hf.SetHeights x0 y0 w h vals).rangeOf (x / hf.B) (y / hf.B) = some (mn, mx)
            ∧ |d - v| ≤ maxError mn mx hf.bits))
    ∧ (touchedBlock hf.n hf.B x0 y0 w h (x / hf.B) (y / hf.B) →
        ¬ insideRect x0 y0 w h x y →
       (getHeightRaw hf x y = none →
          getHeightRaw (hf.SetHeights x0 y0 w h vals) x y = none)
       ∧ (∀ d0, getHeightRaw hf x y = some d0 → ∃ d mn mx,
            getHeightRaw (hf.SetHeights x0 y0 w h vals) x y = some d
            ∧ (hf.SetHeights x0 y0 w h vals).rangeOf (x / hf.B) (y / hf.B) = some (mn, mx)
            ∧ |d - d0| ≤ maxError mn mx hf.bits))
    ∧ (¬ touchedBlock hf.n hf.B x0 y0 w h (x / hf.B) (y / hf.B) →
        (hf.SetHeights x0 y0 w h vals).isHole x y = hf.isHole x y
        ∧ (hf.SetHeights x0 y0 w h vals).code x y = hf.code x y
        ∧ (hf.SetHeights x0 y0 w h vals).rangeOf (x / hf.B) (y / hf.B)
            = hf.rangeOf (x / hf.B) (y / hf.B)
        ∧ getHeightRaw (hf.SetHeights x0 y0 w h vals) x y = getHeightRaw hf x y) := by
  refine ⟨?_, ?_, fun hnt => setHeights_untouched vals hnt⟩
  · intro hin
    have ht := inside_touched hB hx hy hin
    have hnv : newValFn hf x0 y0 w h vals x y = vals (x - x0) (y - y0) := by
      unfold newValFn
      rw [if_pos hin]
    obtain ⟨hdnone, hdsome⟩ := setHeights_decode vals hB hx hy ht
    constructor
    · intro hnone
      exact hdnone (by rw [hnv, hnone])
    · intro v hv
      obtain ⟨mn, mx, hrange, hlo, hhi, hdec⟩ := hdsome v (by rw [hnv, hv])
      exact ⟨dequantize (quantize v mn mx hf.bits) mn mx hf.bits, mn, mx, hdec, hrange,
        dequantize_quantize hbits hlo hhi⟩
  · intro ht hout
    have hnv : newValFn hf x0 y0 w h vals x y = getHeightRaw hf x y := by
      unfold newValFn
      rw [if_neg hout]
    obtain ⟨hdnone, hdsome⟩ := setHeights_decode vals hB hx hy ht
    constructor
    · intro hnone
      exact hdnone (by rw [hnv, hnone])
    · intro d0 hd0
      obtain ⟨mn, mx, hrange, hlo, hhi, hdec⟩ := hdsome d0 (by rw [hnv, hd0])
      exact ⟨dequantize (quantize d0 mn mx hf.bits) mn mx hf.bits, mn, mx, hdec, hrange,
        dequantize_quantize hbits hlo hhi⟩

/-- Witness for C2: a concrete 2×2 shape updated on its lower-left
sample. -/
theorem setHeights_spec_witness :
    0 < (build c1Settings).B ∧ 1 ≤ (build c1Settings).bits
    ∧ (0 : ℕ) < (build c1Settings).n ∧ (1 : ℕ) < (build c1Settings).n
    ∧ ((insideRect 0 0 1 1 0 1 →
         ((fun _ _ : ℕ => some (2 : ℚ)) (0 - 0) (1 - 0) = none →
            getHeightRaw ((build c1Settings).SetHeights 0 0 1 1 (fun _ _ => some 2)) 0 1 = none)
         ∧ (∀ v, (fun _ _ : ℕ => some (2 : ℚ)) (0 - 0) (1 - 0) = some v → ∃ d mn mx,
              getHeightRaw ((build c1Settings).SetHeights 0 0 1 1 (fun _ _ => some 2)) 0 1 = some d
              ∧ ((build c1Settings).SetHeights 0 0 1 1 (fun _ _ => some 2)).rangeOf
                  (0 / (build c1Settings).B) (1 / (build c1Settings).B) = some (mn, mx)
              ∧ |d - v| ≤ maxError mn mx (build c1Settings).bits))
      ∧ (touchedBlock (build c1Settings).n (build c1Settings).B 0 0 1 1
            (0 / (build c1Settings).B) (1 / (build c1Settings).B) →
          ¬ insideRect 0 0 1 1 0 1 →
         (getHeightRaw (build c1Settings) 0 1 = none →
            getHeightRaw ((build c1Settings).SetHeights 0 0 1 1 (fun _ _ => some 2)) 0 1 = none)
         ∧ (∀ d0, getHeightRaw (build c1Settings) 0 1 = some d0 → ∃ d mn mx,
              getHeightRaw ((build c1Settings).SetHeights 0 0 1 1 (fun _ _ => some 2)) 0 1 = some d
              ∧ ((build c1Settings).SetHeights 0 0 1 1 (fun _ _ => some 2)).rangeOf
                  (0 / (build c1Settings).B) (1 / (build c1Settings).B) = some (mn, mx)
              ∧ |d - d0| ≤ maxError mn mx (build c1Settings).bits))
      ∧ (¬ touchedBlock (build c1Settings).n (build c1Settings).B 0 0 1 1
            (0 / (build c1Settings).B) (1 / (build c1Settings).B) →
          ((build c1Settings).SetHeights 0 0 1 1 (fun _ _ => some 2)).isHole 0 1
              = (build c1Settings).isHole 0 1
          ∧ ((build c1Settings).SetHeights 0 0 1 1 (fun _ _ => some 2)).code 0 1
              = (build c1Settings).code 0 1
          ∧ ((build c1Settings).SetHeights 0 0 1 1 (fun _ _ => some 2)).rangeOf
              (0 / (build c1Settings).B) (1 / (build c1Settings).B)
              = (build c1Settings).rangeOf (0 / (build c1Settings).B) (1 / (build c1Settings).B)
          ∧ getHeightRaw ((build c1Settings).SetHeights 0 0 1 1 (fun _ _ => some 2)) 0 1
              = getHeightRaw (build c1Settings) 0 1)) :=
  ⟨by decide, by decide, by decide, by decide,
   setHeights_spec (build c1Settings) 0 0 1 1 (fun _ _ => some 2) (by decide) (by decide)
     0 1 (by decide) (by decide)⟩

/-- No sample of the owner block of a coordinate at or past a
block-aligned high edge lies inside the rectangle (x-axis form). -/
theorem no_overlap_high {n B x0 w xx : ℕ} (hwB : (x0 + w) % B = 0) (hge : x0 + w ≤ xx) :
    ¬ ∃ xi ∈ blockDomain n B (xx / B), x0 ≤ xi ∧ xi < x0 + w := by
  rintro ⟨xi, hxid, hxi1, hxi2⟩
  rw [mem_blockDomain] at hxid
  have hdvd : B ∣ (x0 + w) := Nat.dvd_of_mod_eq_zero hwB
  have hcancel : (x0 + w) / B * B = x0 + w := Nat.div_mul_cancel hdvd
  have hdivle : (x0 + w) / B ≤ xx / B := Nat.div_le_div_right hge
  have hmul : (x0 + w) / B * B ≤ xx / B * B := Nat.mul_le_mul_right B hdivle
  omega

/-- No sample of the owner block of a coordinate more than one
block-width before the low edge lies inside the rectangle. -/
theorem no_overlap_low {n B x0 w xx : ℕ} (hlt : xx + B < x0) :
    ¬ ∃ xi ∈ blockDomain n B (xx / B), x0 ≤ xi ∧ xi < x0 + w := by
  rintro ⟨xi, hxid, hxi1, hxi2⟩
  rw [mem_blockDomain] at hxid
  have hle : xx / B * B ≤ xx := Nat.div_mul_le_self xx B
  omega

/-- C10: when the rectangle's high edges are block-aligned, the only
samples that may be re-quantized lie less than one block-width before
its low edges: everything at or past a high edge, or at least a block
before a low edge, keeps its stored bits and decoded value exactly. -/
theorem setHeights_frame (hf : Shape) (x0 y0 w h : ℕ) (vals : ℕ → ℕ → Option ℚ)
    (hwB : (x0 + w) % hf.B = 0) (hhB : (y0 + h) % hf.B = 0)
    (x y : ℕ)
    (hcond : x0 + w ≤ x ∨ y0 + h ≤ y ∨ x + hf.B < x0 ∨ y + hf.B < y0) :
    (hf.SetHeights x0 y0 w h vals).isHole x y = hf.isHole x y
    ∧ (hf.SetHeights x0 y0 w h vals).code x y = hf.code x y
    ∧ getHeightRaw (hf.SetHeights x0 y0 w h vals) x y = getHeightRaw hf x y := by
  have hnt : ¬ touchedBlock hf.n hf.B x0 y0 w h (x / hf.B) (y / hf.B) := by
    rintro ⟨hex, hey⟩
    rcases hcond with hc | hc | hc | hc
    · exact no_overlap_high hwB hc hex
    · exact no_overlap_high hhB hc hey
    · exact no_overlap_low hc hex
    · exact no_overlap_low hc hey
  obtain ⟨h1, h2, _, h4⟩ := setHeights_untouched vals hnt
  exact ⟨h1, h2, h4⟩

/-- Witness for C10 at a concrete shape and an aligned rectangle. -/
theorem setHeights_frame_witness :
    ((build c1Settings).n = 2 ∧ (0 + 1) % (build c1Settings).B = 0
      ∧ (0 + 1) % (build c1Settings).B = 0 ∧ (0 + 1 ≤ 1 ∨ (0 + 1 ≤ 0 ∨ False)))
    ∧ (((build c1Settings).SetHeights 0 0 1 1 (fun _ _ => some 2)).isHole 1 0
        = (build c1Settings).isHole 1 0
      ∧ ((build c1Settings).SetHeights 0 0 1 1 (fun _ _ => some 2)).code 1 0
        = (build c1Settings).code 1 0
      ∧ getHeightRaw ((build c1Settings).SetHeights 0 0 1 1 (fun _ _ => some 2)) 1 0
        = getHeightRaw (build c1Settings) 1 0) :=
  ⟨⟨by decide, by decide, by decide, Or.inl (by norm_num)⟩,
   setHeights_frame (build c1Settings) 0 0 1 1 (fun _ _ => some 2) (by decide) (by decide)
     1 0 (Or.inl (by norm_num))⟩

/-- Modelled from the spec (§4.5 Geometry Reconstructor): the two
triangles of quad `(qx, qy)` in grid-local space `(x, height, z)`, or
none when any of the 4 corners is a hole.  The quad is split along the
fixed diagonal from `(qx, qy)` to `(qx+1, qy+1)`. -/
def quadTriangles (hf : Shape) (qx qy : ℕ) :
    List ((ℚ × ℚ × ℚ) × (ℚ × ℚ × ℚ) × (ℚ × ℚ × ℚ)) :=
  match getHeightRaw hf qx qy, getHeightRaw hf (qx + 1) qy,
      getHeightRaw hf qx (qy + 1), getHeightRaw hf (qx + 1) (qy + 1) with
  | some h00, some h10, some h01, some h11 =>
    [((qx, h00, qy), ((qx : ℚ), h01, (qy : ℚ) + 1), ((qx : ℚ) + 1, h11, (qy : ℚ) + 1)),
     ((qx, h00, qy), ((qx : ℚ) + 1, h11, (qy : ℚ) + 1), ((qx : ℚ) + 1, h10, (qy : ℚ)))]
  | _, _, _, _ => []

/-- Sum of `g` over all quad coordinates `(qx, qy)` with both
coordinates below `m`. -/
def sumQuads (m : ℕ) (g : ℕ → ℕ → ℕ) : ℕ :=
  (List.range m).foldr (fun qx acc => (List.range m).foldr (fun qy a => g qx qy + a) acc) 0

/-- Modelled from the spec (§4.3 stats, §4.5): the number of collision
triangles of the shape: two per quad whose 4 corners are all non-hole. -/
def numTriangles (hf : Shape) : ℕ :=
  sumQuads (hf.n - 1) (fun qx qy => (quadTriangles hf qx qy).length)

theorem foldr_add_acc {g : ℕ → ℕ} (hg : ∀ b, g b = 0) (L : List ℕ) (acc : ℕ) :
    L.foldr (fun b a => g b + a) acc = acc := by
  induction L with
  | nil => rfl
  | cons c l ih => rw [List.foldr_cons, ih, hg c, Nat.zero_add]

theorem foldr_sum_zero {g : ℕ → ℕ → ℕ} (hg : ∀ a b, g a b = 0) (L1 L2 : List ℕ) :
    L1.foldr (fun qx acc => L2.foldr (fun qy a => g qx qy + a) acc) 0 = 0 := by
  induction L1 with
  | nil => rfl
  | cons c l ih => rw [List.foldr_cons, foldr_add_acc (hg c), ih]

theorem sumQuads_eq_zero {g : ℕ → ℕ → ℕ} (hg : ∀ a b, g a b = 0) (m : ℕ) :
    sumQuads m g = 0 :=
  foldr_sum_zero hg _ _

/-- Abstract size in bytes of the bare shape object header (the
`sizeof` of the C++ object); its concrete value is irrelevant to the
claims, which only compare against it. -/
def cShapeHeaderBytes : ℕ := 80

/-- True when at least one sample of the grid is not a hole. -/
def hasAnyCollision (hf : Shape) : Bool :=
  (List.range hf.n).any fun x => (List.range hf.n).any fun y => ¬ hf.isHole x y

/-- Modelled from the spec (§4.3 stats, §4.2 sample_byte_size): the
shape statistics.  A grid with zero non-hole samples allocates no
block, sample or material-index storage, only the bare object header;
otherwise the packed bit allocation is rounded up to whole bytes. -/
def Shape.GetStats (hf : Shape) : ℕ × ℕ :=
  (numTriangles hf,
   if hasAnyCollision hf then
     cShapeHeaderBytes
       + ((hf.n + hf.B - 1) / hf.B) ^ 2 * 4
       + (hf.bits * hf.n * hf.n + 7) / 8
       + ((hf.n - 1) * (hf.n - 1) + 7) / 8
   else cShapeHeaderBytes)

/-- On an all-hole grid every sample decodes as a hole. -/
theorem build_isHole_of_all_none {s : ShapeSettings}
    (hall : ∀ v ∈ s.heightSamples, v = none) (x y : ℕ) :
    (build s).isHole x y = true := by
  unfold build
  simp only
  unfold ShapeSettings.sampleAt
  cases hidx : s.heightSamples[y * s.sampleCount + x]? with
  | none => rw [List.getD_eq_getElem?_getD, hidx]; rfl
  | some v =>
    have hv : v ∈ s.heightSamples := List.getElem?_mem hidx
    rw [List.getD_eq_getElem?_getD, hidx, hall v hv]
    rfl

/-- C6: a grid in which every sample is the no-collision sentinel
yields a shape with zero triangles whose size is exactly the bare
object header. -/
theorem stats_all_hole (s : ShapeSettings)
    (hall : ∀ v ∈ s.heightSamples, v = none) :
    (build s).GetStats = (0, cShapeHeaderBytes) := by
  have hhole := build_isHole_of_all_none hall
  have hraw : ∀ x y, getHeightRaw (build s) x y = none := by
    intro x y
    unfold getHeightRaw
    rw [hhole x y]
    rfl
  unfold Shape.GetStats
  have hnc : hasAnyCollision (build s) = false := by
    simp [hasAnyCollision, hhole]
  rw [hnc]
  have hquad : ∀ qx qy, (quadTriangles (build s) qx qy).length = 0 := by
    intro qx qy
    simp [quadTriangles, hraw]
  have htris : numTriangles (build s) = 0 := by
    unfold numTriangles
    exact sumQuads_eq_zero (fun qx qy => hquad qx qy) _
  rw [htris]
  simp

/-- Witness shape for C6: a concrete 2×2 all-hole grid. -/
def c6Settings : ShapeSettings :=
  { sampleCount := 2, blockSize := 1, bitsPerSample := 1, offset := (0, 0, 0),
    scale := (1, 1, 1), heightSamples := [none, none, none, none],
    materials := [], materialIndices := [] }

theorem stats_all_hole_witness :
    (∀ v ∈ c6Settings.heightSamples, v = none)
    ∧ (build c6Settings).GetStats = (0, cShapeHeaderBytes) :=
  ⟨by decide, stats_all_hole c6Settings (by decide)⟩

/-- Modelled from the spec (§4.4, §3 Material): the shape-wide default
material handle, returned when the material list is empty. -/
def sDefaultMaterial : ℕ := 0

/-- Modelled from the spec (§4.4 get_material): resolve the quad's
stored index through the material list, or the shape-wide default when
the list is empty. -/
def Shape.GetMaterial (hf : Shape) (x y : ℕ) : ℕ :=
  match hf.matList with
  | [] => sDefaultMaterial
  | m :: _ => hf.matList.getD (hf.matIdx x y) m

/-- Modelled from the spec (§4.4 get_materials): the stored per-quad
index returned at offset `(i, j)` of the requested sub-rectangle. -/
def Shape.GetMaterials (hf : Shape) (x0 y0 w h i j : ℕ) : ℕ :=
  hf.matIdx (x0 + i) (y0 + j)

/-- C9: `get_material` resolves the quad's stored index through the
material list; with an omitted index grid and a non-empty list every
quad resolves to the first entry; with an empty list every quad
resolves to the shape-wide default. -/
theorem getMaterial_resolution (s : ShapeSettings) (x y : ℕ) :
    (s.materials = [] → (build s).GetMaterial x y = sDefaultMaterial)
    ∧ (s.materialIndices = [] → ∀ m rest, s.materials = m :: rest →
        (build s).GetMaterial x y = m)
    ∧ (∀ m rest, s.materials = m :: rest →
        (build s).GetMaterial x y = s.materials.getD ((build s).matIdx x y) m) := by
  refine ⟨?_, ?_, ?_⟩
  · intro hnil
    unfold Shape.GetMaterial build
    simp only [hnil]
  · intro hidx m rest hm
    unfold Shape.GetMaterial build
    simp only [hm, hidx, if_pos]
    simp
  · intro m rest hm
    unfold Shape.GetMaterial build
    simp only [hm]

/-- Witness for C9 at concrete shapes: one with materials but no index
grid, one with an empty material list. -/
def c9Settings : ShapeSettings :=
  { sampleCount := 2, blockSize := 1, bitsPerSample := 1, offset := (0, 0, 0),
    scale := (1, 1, 1), heightSamples := [some 1, some 1, some 1, some 1],
    materials := [7, 8], materialIndices := [] }

/-- Modelled from the spec (§4.4 set_materials, §6): the maximum
number of material-list entries representable by the index grid's
bit-width ceiling (the per-quad index API is 8 bits wide). -/
def cMaxMaterialCount : ℕ := 256

/-- Append a handle to the list unless it is already present, reusing
the existing position (spec §4.4: dedup by identity). -/
def addUnique (l : List ℕ) (m : ℕ) : List ℕ :=
  if m ∈ l then l else l ++ [m]

/-- Modelled from the spec (§4.4 set_materials (a)): merge the
replacement palette's entries into the existing material list,
deduplicating by identity and reusing existing positions. -/
def mergeMaterials (old new : List ℕ) : List ℕ :=
  new.foldl addUnique old

/-- The first position of `m` in `l` (the encoded index of a handle in
the material list, spec §3 Material List). -/
def posIn (m : ℕ) : List ℕ → ℕ
  | [] => 0
  | a :: l => if a = m then 0 else posIn m l + 1

/-- Modelled from the spec (§4.4 set_materials): write the per-quad
indices of a sub-rectangle.  With a replacement palette the entries
are merged into the existing list and the supplied indices remapped to
merged-list positions; the call fails - returning `false` and the
shape unchanged - when the merged list exceeds the representable
ceiling.  Without a palette the indices are interpreted directly
against the current list. -/
def Shape.SetMaterials (hf : Shape) (x0 y0 w h : ℕ) (newIdx : ℕ → ℕ → ℕ)
    (repl : Option (List ℕ)) : Bool × Shape :=
  match repl with
  | none =>
    (true, { hf with matIdx := fun x y =>
      if (insideRect x0 y0 w h x y) then newIdx (x - x0) (y - y0) else hf.matIdx x y })
  | some rl =>
    let merged := mergeMaterials hf.matList rl
    if cMaxMaterialCount < merged.length then (false, hf)
    else
      (true, { hf with
        matList := merged
        matIdx := fun x y =>
          if (insideRect x0 y0 w h x y) then
            posIn (rl.getD (newIdx (x - x0) (y - y0)) sDefaultMaterial) merged
          else hf.matIdx x y })

theorem mergeMaterials_extends (old new : List ℕ) :
    ∃ t, mergeMaterials old new = old ++ t := by
  induction new generalizing old with
  | nil => exact ⟨[], by simp [mergeMaterials]⟩
  | cons a l ih =>
    unfold mergeMaterials at ih ⊢
    rw [List.foldl_cons]
    by_cases hmem : a ∈ old
    · rw [show addUnique old a = old from by unfold addUnique; rw [if_pos hmem]]
      exact ih old
    · rw [show addUnique old a = old ++ [a] from by unfold addUnique; rw [if_neg hmem]]
      obtain ⟨t, ht⟩ := ih (old ++ [a])
      exact ⟨[a] ++ t, by rw [ht, List.append_assoc]⟩

theorem mem_mergeMaterials_left {old : List ℕ} {m : ℕ} (h : m ∈ old) (new : List ℕ) :
    m ∈ mergeMaterials old new := by
  obtain ⟨t, ht⟩ := mergeMaterials_extends old new
  rw [ht]
  exact List.mem_append_left t h

theorem mem_mergeMaterials_right {new : List ℕ} {m : ℕ} (h : m ∈ new) (old : List ℕ) :
    m ∈ mergeMaterials old new := by
  induction new generalizing old with
  | nil => simp at h
  | cons a l ih =>
    unfold mergeMaterials
    rw [List.foldl_cons]
    rcases List.mem_cons.mp h with rfl | hml
    · apply mem_mergeMaterials_left
      unfold addUnique
      split_ifs with hmem
      · exact hmem
      · exact List.mem_append_right old (List.mem_singleton_self m)
    · exact ih hml _

theorem posIn_lt_length {l : List ℕ} {m : ℕ} (h : m ∈ l) : posIn m l < l.length := by
  induction l with
  | nil => simp at h
  | cons a l ih =>
    unfold posIn
    split_ifs with ha
    · simp
    · rcases List.mem_cons.mp h with rfl | hml
      · exact absurd rfl ha
      · simpa using ih hml

theorem getD_posIn {l : List ℕ} {m : ℕ} (h : m ∈ l) (d : ℕ) :
    l.getD (posIn m l) d = m := by
  induction l with
  | nil => simp at h
  | cons a l ih =>
    unfold posIn
    split_ifs with ha
    · simpa using ha
    · rcases List.mem_cons.mp h with rfl | hml
      · exact absurd rfl ha
      · simpa using ih hml

theorem getD_mem {l : List ℕ} {i : ℕ} (h : i < l.length) (d : ℕ) : l.getD i d ∈ l := by
  rw [List.getD_eq_getElem?_getD, List.getElem?_eq_getElem h]
  exact List.getElem_mem h

theorem getD_default_irrel {l : List ℕ} {i : ℕ} (h : i < l.length) (d d' : ℕ) :
    l.getD i d = l.getD i d' := by
  rw [List.getD_eq_getElem?_getD, List.getD_eq_getElem?_getD, List.getElem?_eq_getElem h]
  rfl

theorem getD_append_left {l t : List ℕ} {i : ℕ} (h : i < l.length) (d : ℕ) :
    (l ++ t).getD i d = l.getD i d := by
  rw [List.getD_eq_getElem?_getD, List.getD_eq_getElem?_getD,
    List.getElem?_append_left h]

/-- Resolution through an in-range index is a plain list lookup,
whatever the nonempty list's head is. -/
theorem getMaterial_eq_getD (hf : Shape) (x y : ℕ) (hne : hf.matList ≠ [])
    (d : ℕ) (h : hf.matIdx x y < hf.matList.length) :
    hf.GetMaterial x y = hf.matList.getD (hf.matIdx x y) d := by
  unfold Shape.GetMaterial
  cases hl : hf.matList with
  | nil => exact absurd hl hne
  | cons m rest =>
    rw [hl] at h
    exact getD_default_irrel (l := m :: rest) h m d

/-- The union of the shape's existing material list with an optional
replacement palette (spec §4.4 set_materials: the merged list whose
size decides success). -/
def unionList (hf : Shape) (repl : Option (List ℕ)) : List ℕ :=
  match repl with
  | none => hf.matList
  | some rl => mergeMaterials hf.matList rl

/-- C3: after a successful `set_materials`, every quad inside the
rectangle resolves through `get_material` to the handle the supplied
index picked from the replacement palette (or from the current list
when the palette is omitted), every quad outside resolves to its
previous handle, the material-list invariants are preserved (so the
round trip holds across arbitrarily many sequential updates), and
`get_materials` returns the stored indices that `get_material`
resolves. -/
theorem setMaterials_roundtrip (hf : Shape) (x0 y0 w h : ℕ) (newIdx : ℕ → ℕ → ℕ)
    (repl : Option (List ℕ)) (hne : hf.matList ≠ [])
    (hinv : ∀ x y, hf.matIdx x y < hf.matList.length)
    (hvalid : ∀ i j, newIdx i j < (repl.getD hf.matList).length)
    (hf' : Shape) (hok : hf.SetMaterials x0 y0 w h newIdx repl = (true, hf')) :
    hf'.matList ≠ []
    ∧ (∀ x y, hf'.matIdx x y < hf'.matList.length)
    ∧ (∀ x y, insideRect x0 y0 w h x y →
        hf'.GetMaterial x y
          = (repl.getD hf.matList).getD (newIdx (x - x0) (y - y0)) sDefaultMaterial)
    ∧ (∀ x y, ¬ insideRect x0 y0 w h x y → hf'.GetMaterial x y = hf.GetMaterial x y)
    ∧ (∀ a b c d i j : ℕ, hf'.GetMaterials a b c d i j = hf'.matIdx (a + i) (b + j)) := by
  cases repl with
  | none =>
    simp only [Shape.SetMaterials] at hok
    injection hok with h1 h2
    have hL : hf'.matList = hf.matList := by rw [← h2]
    have hI : ∀ x y, hf'.matIdx x y
        = if (insideRect x0 y0 w h x y) then newIdx (x - x0) (y - y0) else hf.matIdx x y := by
      intro x y
      rw [← h2]
    have hne' : hf'.matList ≠ [] := by rw [hL]; exact hne
    have hinv' : ∀ x y, hf'.matIdx x y < hf'.matList.length := by
      intro x y
      rw [hI, hL]
      split_ifs with hin
      · exact hvalid (x - x0) (y - y0)
      · exact hinv x y
    refine ⟨hne', hinv', ?_, ?_, fun a b c d i j => rfl⟩
    · intro x y hin
      rw [getMaterial_eq_getD hf' x y hne' sDefaultMaterial (hinv' x y), hI, if_pos hin, hL]
      rfl
    · intro x y hout
      rw [getMaterial_eq_getD hf' x y hne' sDefaultMaterial (hinv' x y),
        getMaterial_eq_getD hf x y hne sDefaultMaterial (hinv x y), hI, if_neg hout, hL]
  | some rl =>
    simp only [Shape.SetMaterials] at hok
    by_cases hov : cMaxMaterialCount < (mergeMaterials hf.matList rl).length
    · rw [if_pos hov] at hok
      injection hok with h1 _
      exact Bool.noConfusion h1
    · rw [if_neg hov] at hok
      injection hok with h1 h2
      obtain ⟨t, ht⟩ := mergeMaterials_extends hf.matList rl
      have hL : hf'.matList = mergeMaterials hf.matList rl := by rw [← h2]
      have hI : ∀ x y, hf'.matIdx x y
          = if (insideRect x0 y0 w h x y) then
              posIn (rl.getD (newIdx (x - x0) (y - y0)) sDefaultMaterial)
                (mergeMaterials hf.matList rl)
            else hf.matIdx x y := by
        intro x y
        rw [← h2]
      have hmne : hf'.matList ≠ [] := by
        rw [hL, ht]
        intro hnil
        exact hne (List.append_eq_nil.mp hnil).1
      have hinv' : ∀ x y, hf'.matIdx x y < hf'.matList.length := by
        intro x y
        rw [hI, hL]
        split_ifs with hin
        · apply posIn_lt_length
          exact mem_mergeMaterials_right
            (getD_mem (hvalid (x - x0) (y - y0)) sDefaultMaterial) hf.matList
        · calc hf.matIdx x y < hf.matList.length := hinv x y
          _ ≤ (mergeMaterials hf.matList rl).length := by
              rw [ht, List.length_append]
              omega
      refine ⟨hmne, hinv', ?_, ?_, fun a b c d i j => rfl⟩
      · intro x y hin
        rw [getMaterial_eq_getD hf' x y hmne sDefaultMaterial (hinv' x y), hI, if_pos hin, hL]
        exact getD_posIn
          (mem_mergeMaterials_right
            (getD_mem (hvalid (x - x0) (y - y0)) sDefaultMaterial) hf.matList) sDefaultMaterial
      · intro x y hout
        rw [getMaterial_eq_getD hf' x y hmne sDefaultMaterial (hinv' x y),
          getMaterial_eq_getD hf x y hne sDefaultMaterial (hinv x y), hI, if_neg hout, hL, ht]
        exact getD_append_left (hinv x y) sDefaultMaterial

/-- The shape used for the material-update witnesses. -/
def cMatSettings : ShapeSettings :=
  { sampleCount := 2, blockSize := 1, bitsPerSample := 1, offset := (0, 0, 0),
    scale := (1, 1, 1), heightSamples := [some 1, some 1, some 1, some 1],
    materials := [5], materialIndices := [] }

def cMatShape : Shape := build cMatSettings

theorem setMaterials_roundtrip_witness :
    cMatShape.matList ≠ []
    ∧ (∀ x y, cMatShape.matIdx x y < cMatShape.matList.length)
    ∧ (∀ i j : ℕ, (fun _ _ : ℕ => 0) i j < ((some [6, 5]).getD cMatShape.matList).length)
    ∧ (cMatShape.SetMaterials 0 0 1 1 (fun _ _ => 0) (some [6, 5])
        = (true, (cMatShape.SetMaterials 0 0 1 1 (fun _ _ => 0) (some [6, 5])).2))
    ∧ ((cMatShape.SetMaterials 0 0 1 1 (fun _ _ => 0) (some [6, 5])).2.matList ≠ []
      ∧ (∀ x y, (cMatShape.SetMaterials 0 0 1 1 (fun _ _ => 0) (some [6, 5])).2.matIdx x y
          < (cMatShape.SetMaterials 0 0 1 1 (fun _ _ => 0) (some [6, 5])).2.matList.length)
      ∧ (∀ x y, insideRect 0 0 1 1 x y →
          (cMatShape.SetMaterials 0 0 1 1 (fun _ _ => 0) (some [6, 5])).2.GetMaterial x y
            = ((some [6, 5]).getD cMatShape.matList).getD ((fun _ _ : ℕ => 0) (x - 0) (y - 0))
                sDefaultMaterial)
      ∧ (∀ x y, ¬ insideRect 0 0 1 1 x y →
          (cMatShape.SetMaterials 0 0 1 1 (fun _ _ => 0) (some [6, 5])).2.GetMaterial x y
            = cMatShape.GetMaterial x y)
      ∧ (∀ a b c d i j : ℕ,
          (cMatShape.SetMaterials 0 0 1 1 (fun _ _ => 0) (some [6, 5])).2.GetMaterials a b c d i j
            = (cMatShape.SetMaterials 0 0 1 1 (fun _ _ => 0) (some [6, 5])).2.matIdx (a + i) (b + j))) :=
  have hne : cMatShape.matList ≠ [] := by decide
  have hinv : ∀ x y, cMatShape.matIdx x y < cMatShape.matList.length := by
    intro x y
    show (if ([] : List ℕ) = [] then 0 else cMatSettings.materialIndices.getD (y * 1 + x) 0) < 1
    simp
  have hvalid : ∀ i j : ℕ, (fun _ _ : ℕ => 0) i j < ((some [6, 5]).getD cMatShape.matList).length := by
    intro i j
    show 0 < 2
    norm_num
  have hok : cMatShape.SetMaterials 0 0 1 1 (fun _ _ => 0) (some [6, 5])
      = (true, (cMatShape.SetMaterials 0 0 1 1 (fun _ _ => 0) (some [6, 5])).2) := rfl
  ⟨hne, hinv, hvalid, hok,
   setMaterials_roundtrip cMatShape 0 0 1 1 (fun _ _ => 0) (some [6, 5]) hne hinv hvalid
     (cMatShape.SetMaterials 0 0 1 1 (fun _ _ => 0) (some [6, 5])).2 hok⟩

/-- C4: `set_materials` reports failure exactly when the union of the
existing material list and the replacement palette exceeds the
representable ceiling of the index grid's bit width, and on failure
the shape's stored state is returned bit-for-bit unchanged. -/
theorem setMaterials_failure (hf : Shape) (x0 y0 w h : ℕ) (newIdx : ℕ → ℕ → ℕ)
    (repl : Option (List ℕ)) (hcap : hf.matList.length ≤ cMaxMaterialCount) :
    ((hf.SetMaterials x0 y0 w h newIdx repl).1 = false
        ↔ cMaxMaterialCount < (unionList hf repl).length)
    ∧ ((hf.SetMaterials x0 y0 w h newIdx repl).1 = false
        → (hf.SetMaterials x0 y0 w h newIdx repl).2 = hf) := by
  cases repl with
  | none =>
    constructor
    · constructor
      · intro hfalse
        exact Bool.noConfusion hfalse
      · intro hlt
        have hlt2 : cMaxMaterialCount < hf.matList.length := hlt
        omega
    · intro hfalse
      exact Bool.noConfusion hfalse
  | some rl =>
    simp only [Shape.SetMaterials, unionList]
    by_cases hov : cMaxMaterialCount < (mergeMaterials hf.matList rl).length
    · rw [if_pos hov]
      exact ⟨⟨fun _ => hov, fun _ => rfl⟩, fun _ => rfl⟩
    · rw [if_neg hov]
      exact ⟨⟨fun hfalse => Bool.noConfusion hfalse, fun hlt => absurd hlt hov⟩,
        fun hfalse => Bool.noConfusion hfalse⟩

theorem setMaterials_failure_witness :
    cMatShape.matList.length ≤ cMaxMaterialCount
    ∧ (((cMatShape.SetMaterials 0 0 1 1 (fun _ _ => 0) (some [6, 5])).1 = false
        ↔ cMaxMaterialCount < (unionList cMatShape (some [6, 5])).length)
      ∧ ((cMatShape.SetMaterials 0 0 1 1 (fun _ _ => 0) (some [6, 5])).1 = false
        → (cMatShape.SetMaterials 0 0 1 1 (fun _ _ => 0) (some [6, 5])).2 = cMatShape)) :=
  ⟨by decide,
   setMaterials_failure cMatShape 0 0 1 1 (fun _ _ => 0) (some [6, 5]) (by decide)⟩

theorem getMaterial_resolution_witness :
    c9Settings.materialIndices = [] ∧ c9Settings.materials = 7 :: [8]
    ∧ (build c9Settings).GetMaterial 0 0 = 7
    ∧ (build c9Settings).GetMaterial 0 0
        = c9Settings.materials.getD ((build c9Settings).matIdx 0 0) 7 :=
  ⟨rfl, rfl, (getMaterial_resolution c9Settings 0 0).2.1 rfl 7 [8] rfl,
   (getMaterial_resolution c9Settings 0 0).2.2 7 [8] rfl⟩

/-- A triangle in grid-local space; each vertex is `(x, height, z)`. -/
abbrev Tri : Type := (ℚ × ℚ × ℚ) × (ℚ × ℚ × ℚ) × (ℚ × ℚ × ℚ)

/-- The 2D cross product of `(ax, az)` and `(bx, bz)`. -/
def cross2 (ax az bx bz : ℚ) : ℚ := ax * bz - az * bx

/-- Closed point-in-triangle test in the horizontal `(x, z)` plane: the
three edge cross products share a sign (spec §4.6 step 3, the 2D part
of ray/triangle intersection for a vertical ray). -/
def pointInTri (px pz ax az bx bz cx cz : ℚ) : Prop :=
  (0 ≤ cross2 (bx - ax) (bz - az) (px - ax) (pz - az)
    ∧ 0 ≤ cross2 (cx - bx) (cz - bz) (px - bx) (pz - bz)
    ∧ 0 ≤ cross2 (ax - cx) (az - cz) (px - cx) (pz - cz))
  ∨ (cross2 (bx - ax) (bz - az) (px - ax) (pz - az) ≤ 0
    ∧ cross2 (cx - bx) (cz - bz) (px - bx) (pz - bz) ≤ 0
    ∧ cross2 (ax - cx) (az - cz) (px - cx) (pz - cz) ≤ 0)

instance (px pz ax az bx bz cx cz : ℚ) :
    Decidable (pointInTri px pz ax az bx bz cx cz) := by
  unfold pointInTri
  infer_instance

/-- Barycentric interpolation of the three vertex heights at `(px, pz)`
(spec §4.6 step 3: the height at which a vertical ray meets the
triangle's plane). -/
def interpHeight (px pz ax ay az bx b_y bz cx cy cz : ℚ) : ℚ :=
  if cross2 (bx - ax) (bz - az) (cx - ax) (cz - az) = 0 then ay
  else (cross2 (bx - px) (bz - pz) (cx - px) (cz - pz) * ay
      + cross2 (cx - px) (cz - pz) (ax - px) (az - pz) * b_y
      + cross2 (ax - px) (az - pz) (bx - px) (bz - pz) * cy)
    / cross2 (bx - ax) (bz - az) (cx - ax) (cz - az)

/-- The vertical line at `(px, pz)` meets triangle `t` (2D test on the
`(x, z)` projection). -/
def triContains (px pz : ℚ) (t : Tri) : Prop :=
  pointInTri px pz t.1.1 t.1.2.2 t.2.1.1 t.2.1.2.2 t.2.2.1 t.2.2.2.2

instance (px pz : ℚ) (t : Tri) : Decidable (triContains px pz t) := by
  unfold triContains
  infer_instance

/-- The height at which the vertical line at `(px, pz)` meets `t`. -/
def triHeight (px pz : ℚ) (t : Tri) : ℚ :=
  interpHeight px pz t.1.1 t.1.2.1 t.1.2.2 t.2.1.1 t.2.1.2.1 t.2.1.2.2
    t.2.2.1 t.2.2.2.1 t.2.2.2.2

/-- The heights at which the vertical line at `(px, pz)` hits the
triangles of quad `(qx, qy)`. -/
def quadHits (hf : Shape) (px pz : ℚ) (qx qy : ℕ) : List ℚ :=
  (quadTriangles hf qx qy).filterMap fun t =>
    if (triContains px pz t) then some (triHeight px pz t) else none

/-- All vertical-ray intersection heights over every quad of the grid. -/
def vertRayHits (hf : Shape) (px pz : ℚ) : List ℚ :=
  (List.range (hf.n - 1)).foldr
    (fun qx acc => (List.range (hf.n - 1)).foldr
      (fun qy a => quadHits hf px pz qx qy ++ a) acc) []

/-- Maximum of a list of rationals. -/
def listMax : List ℚ → Option ℚ
  | [] => none
  | v :: l =>
    match listMax l with
    | none => some v
    | some m => some (max v m)

/-- Modelled from the spec (§4.6 Ray Caster), specialized to a
vertical downward ray already transformed to grid-local space (spec
step 1): every candidate triangle is tested for intersection and the
closest hit is returned - for a downward ray, the greatest
intersection height.  The block-range pruning of step 2 is elided: it
only skips blocks whose cached range cannot contain a hit, so it does
not change the result. -/
def castRayDown (hf : Shape) (px pz : ℚ) : Option ℚ :=
  listMax (vertRayHits hf px pz)

theorem listMax_all_eq {l : List ℚ} {d : ℚ} (hne : l ≠ [])
    (hall : ∀ v ∈ l, v = d) : listMax l = some d := by
  induction l with
  | nil => exact absurd rfl hne
  | cons a t ih =>
    have ha : a = d := hall a (List.mem_cons_self a t)
    cases t with
    | nil => simp [listMax, ha]
    | cons b t2 =>
      have hm := ih (by simp) (fun v hv => hall v (List.mem_cons_of_mem a hv))
      unfold listMax
      rw [show listMax (b :: t2) = some d from hm, ha]
      simp

theorem listMax_nil_iff {l : List ℚ} : listMax l = none ↔ l = [] := by
  cases l with
  | nil => simp [listMax]
  | cons a t =>
    unfold listMax
    cases listMax t <;> simp

theorem mem_foldr_row {Ly : List ℕ} {g : ℕ → List ℚ} {acc : List ℚ} {v : ℚ} :
    v ∈ Ly.foldr (fun qy a => g qy ++ a) acc ↔ (∃ y ∈ Ly, v ∈ g y) ∨ v ∈ acc := by
  induction Ly with
  | nil => simp
  | cons b t ih =>
    simp only [List.foldr_cons, List.mem_append, ih, List.mem_cons]
    constructor
    · rintro (hv | (⟨y, hy, hvy⟩ | hv))
      · exact Or.inl ⟨b, Or.inl rfl, hv⟩
      · exact Or.inl ⟨y, Or.inr hy, hvy⟩
      · exact Or.inr hv
    · rintro (⟨y, (rfl | hy), hvy⟩ | hv)
      · exact Or.inl hvy
      · exact Or.inr (Or.inl ⟨y, hy, hvy⟩)
      · exact Or.inr (Or.inr hv)

theorem mem_foldr_grid {Lx Ly : List ℕ} {g : ℕ → ℕ → List ℚ} {v : ℚ} :
    v ∈ Lx.foldr (fun qx acc => Ly.foldr (fun qy a => g qx qy ++ a) acc) []
      ↔ ∃ x ∈ Lx, ∃ y ∈ Ly, v ∈ g x y := by
  induction Lx with
  | nil => simp
  | cons a t ih =>
    simp only [List.foldr_cons, List.mem_cons]
    rw [mem_foldr_row, ih]
    constructor
    · rintro (⟨y, hy, hvy⟩ | ⟨qx, hqx, qy, hqy, hvq⟩)
      · exact ⟨a, Or.inl rfl, y, hy, hvy⟩
      · exact ⟨qx, Or.inr hqx, qy, hqy, hvq⟩
    · rintro ⟨qx, (rfl | hqx), qy, hqy, hvq⟩
      · exact Or.inl ⟨qy, hqy, hvq⟩
      · exact Or.inr ⟨qx, hqx, qy, hqy, hvq⟩

theorem mem_vertRayHits {hf : Shape} {px pz : ℚ} {v : ℚ} :
    v ∈ vertRayHits hf px pz
      ↔ ∃ qx ∈ List.range (hf.n - 1), ∃ qy ∈ List.range (hf.n - 1),
          v ∈ quadHits hf px pz qx qy :=
  mem_foldr_grid

theorem interp_t1_a (qx qy h00 h01 h11 : ℚ) :
    interpHeight qx qy qx h00 qy qx h01 (qy + 1) (qx + 1) h11 (qy + 1) = h00 := by
  unfold interpHeight cross2
  rw [if_neg (by intro hc; ring_nf at hc; norm_num at hc)]
  rw [div_eq_iff (by intro hc; ring_nf at hc; norm_num at hc)]
  ring

theorem interp_t1_b (qx qy h00 h01 h11 : ℚ) :
    interpHeight qx (qy + 1) qx h00 qy qx h01 (qy + 1) (qx + 1) h11 (qy + 1) = h01 := by
  unfold interpHeight cross2
  rw [if_neg (by intro hc; ring_nf at hc; norm_num at hc)]
  rw [div_eq_iff (by intro hc; ring_nf at hc; norm_num at hc)]
  ring

theorem interp_t1_c (qx qy h00 h01 h11 : ℚ) :
    interpHeight (qx + 1) (qy + 1) qx h00 qy qx h01 (qy + 1) (qx + 1) h11 (qy + 1) = h11 := by
  unfold interpHeight cross2
  rw [if_neg (by intro hc; ring_nf at hc; norm_num at hc)]
  rw [div_eq_iff (by intro hc; ring_nf at hc; norm_num at hc)]
  ring

theorem interp_t2_a (qx qy h00 h11 h10 : ℚ) :
    interpHeight qx qy qx h00 qy (qx + 1) h11 (qy + 1) (qx + 1) h10 qy = h00 := by
  unfold interpHeight cross2
  rw [if_neg (by intro hc; ring_nf at hc; norm_num at hc)]
  rw [div_eq_iff (by intro hc; ring_nf at hc; norm_num at hc)]
  ring

theorem interp_t2_b (qx qy h00 h11 h10 : ℚ) :
    interpHeight (qx + 1) (qy + 1) qx h00 qy (qx + 1) h11 (qy + 1) (qx + 1) h10 qy = h11 := by
  unfold interpHeight cross2
  rw [if_neg (by intro hc; ring_nf at hc; norm_num at hc)]
  rw [div_eq_iff (by intro hc; ring_nf at hc; norm_num at hc)]
  ring

theorem interp_t2_c (qx qy h00 h11 h10 : ℚ) :
    interpHeight (qx + 1) qy qx h00 qy (qx + 1) h11 (qy + 1) (qx + 1) h10 qy = h10 := by
  unfold interpHeight cross2
  rw [if_neg (by intro hc; ring_nf at hc; norm_num at hc)]
  rw [div_eq_iff (by intro hc; ring_nf at hc; norm_num at hc)]
  ring

/-- An integer grid point inside (the closed hull of) the first quad
triangle is one of its three vertices. -/
theorem t1_contains_vertex {x y qx qy : ℕ}
    (hc : pointInTri (x : ℚ) (y : ℚ) qx qy qx ((qy : ℚ) + 1) ((qx : ℚ) + 1) ((qy : ℚ) + 1)) :
    (x = qx ∧ y = qy) ∨ (x = qx ∧ y = qy + 1) ∨ (x = qx + 1 ∧ y = qy + 1) := by
  unfold pointInTri cross2 at hc
  rcases hc with ⟨h1, h2, h3⟩ | ⟨h1, h2, h3⟩
  · exfalso
    nlinarith [h1, h2, h3]
  · have hx1 : qx ≤ x := by exact_mod_cast (show (qx : ℚ) ≤ x by nlinarith [h1])
    have hx2 : x ≤ qx + 1 := by
      exact_mod_cast (show (x : ℚ) ≤ (qx : ℚ) + 1 by nlinarith [h2, h3])
    have hy1 : qy ≤ y := by exact_mod_cast (show (qy : ℚ) ≤ y by nlinarith [h1, h3])
    have hy2 : y ≤ qy + 1 := by
      exact_mod_cast (show (y : ℚ) ≤ (qy : ℚ) + 1 by nlinarith [h2])
    by_cases hxe : x = qx
    · by_cases hye : y = qy
      · exact Or.inl ⟨hxe, hye⟩
      · exact Or.inr (Or.inl ⟨hxe, by omega⟩)
    · have hxq : x = qx + 1 := by omega
      have hcx : (x : ℚ) = (qx : ℚ) + 1 := by exact_mod_cast congrArg Nat.cast hxq
      have hye : y = qy + 1 := by
        by_contra hne2
        have hyq : y = qy := by omega
        have hcy : (y : ℚ) = (qy : ℚ) := by exact_mod_cast congrArg Nat.cast hyq
        nlinarith [h3]
      exact Or.inr (Or.inr ⟨hxq, hye⟩)

/-- An integer grid point inside the second quad triangle is one of
its three vertices. -/
theorem t2_contains_vertex {x y qx qy : ℕ}
    (hc : pointInTri (x : ℚ) (y : ℚ) qx qy ((qx : ℚ) + 1) ((qy : ℚ) + 1) ((qx : ℚ) + 1) qy) :
    (x = qx ∧ y = qy) ∨ (x = qx + 1 ∧ y = qy + 1) ∨ (x = qx + 1 ∧ y = qy) := by
  unfold pointInTri cross2 at hc
  rcases hc with ⟨h1, h2, h3⟩ | ⟨h1, h2, h3⟩
  · exfalso
    nlinarith [h1, h2, h3]
  · have hx1 : qx ≤ x := by exact_mod_cast (show (qx : ℚ) ≤ x by nlinarith [h1, h3])
    have hx2 : x ≤ qx + 1 := by
      exact_mod_cast (show (x : ℚ) ≤ (qx : ℚ) + 1 by nlinarith [h2])
    have hy1 : qy ≤ y := by exact_mod_cast (show (qy : ℚ) ≤ y by nlinarith [h3])
    have hy2 : y ≤ qy + 1 := by
      exact_mod_cast (show (y : ℚ) ≤ (qy : ℚ) + 1 by nlinarith [h1, h2])
    by_cases hxe : x = qx
    · have hcx : (x : ℚ) = (qx : ℚ) := by exact_mod_cast congrArg Nat.cast hxe
      have hye : y = qy := by
        by_contra hne2
        have hyq : y = qy + 1 := by omega
        have hcy : (y : ℚ) = (qy : ℚ) + 1 := by exact_mod_cast congrArg Nat.cast hyq
        nlinarith [h1]
      exact Or.inl ⟨hxe, hye⟩
    · have hxq : x = qx + 1 := by omega
      by_cases hye : y = qy
      · exact Or.inr (Or.inr ⟨hxq, hye⟩)
      · exact Or.inr (Or.inl ⟨hxq, by omega⟩)

/-- Every hit of a vertical ray through the grid point `(x, y)` occurs
at the point itself: the intersected triangle has `(x, y)` as a vertex
and the intersection height is the decoded height there. -/
theorem quadHits_val {hf : Shape} {x y qx qy : ℕ} {v : ℚ}
    (hv : v ∈ quadHits hf (x : ℚ) (y : ℚ) qx qy) :
    ∃ dv, getHeightRaw hf x y = some dv ∧ v = dv := by
  unfold quadHits at hv
  rw [List.mem_filterMap] at hv
  obtain ⟨t, ht, hite⟩ := hv
  unfold quadTriangles at ht
  cases e00 : getHeightRaw hf qx qy with
  | none => rw [e00] at ht; simp at ht
  | some h00 =>
  rw [e00] at ht
  cases e10 : getHeightRaw hf (qx + 1) qy with
  | none => rw [e10] at ht; simp at ht
  | some h10 =>
  rw [e10] at ht
  cases e01 : getHeightRaw hf qx (qy + 1) with
  | none => rw [e01] at ht; simp at ht
  | some h01 =>
  rw [e01] at ht
  cases e11 : getHeightRaw hf (qx + 1) (qy + 1) with
  | none => rw [e11] at ht; simp at ht
  | some h11 =>
  rw [e11] at ht
  simp only [List.mem_cons, List.not_mem_nil, or_false] at ht
  rcases ht with rfl | rfl
  · -- first triangle
    split_ifs at hite with hcont
    · have hveq : triHeight (x : ℚ) (y : ℚ)
          (((qx : ℚ), h00, (qy : ℚ)), ((qx : ℚ), h01, (qy : ℚ) + 1),
            ((qx : ℚ) + 1, h11, (qy : ℚ) + 1)) = v := Option.some_inj.mp hite
      have hvert := t1_contains_vertex hcont
      rcases hvert with ⟨hx, hy⟩ | ⟨hx, hy⟩ | ⟨hx, hy⟩
      · have hcx : (x : ℚ) = (qx : ℚ) := by rw [hx]
        have hcy : (y : ℚ) = (qy : ℚ) := by rw [hy]
        rw [hcx, hcy] at hveq
        refine ⟨h00, by rw [hx, hy]; exact e00, ?_⟩
        rw [← hveq]
        exact interp_t1_a qx qy h00 h01 h11
      · have hcx : (x : ℚ) = (qx : ℚ) := by rw [hx]
        have hcy : (y : ℚ) = (qy : ℚ) + 1 := by rw [hy]; push_cast; ring
        rw [hcx, hcy] at hveq
        refine ⟨h01, by rw [hx, hy]; exact e01, ?_⟩
        rw [← hveq]
        exact interp_t1_b qx qy h00 h01 h11
      · have hcx : (x : ℚ) = (qx : ℚ) + 1 := by rw [hx]; push_cast; ring
        have hcy : (y : ℚ) = (qy : ℚ) + 1 := by rw [hy]; push_cast; ring
        rw [hcx, hcy] at hveq
        refine ⟨h11, by rw [hx, hy]; exact e11, ?_⟩
        rw [← hveq]
        exact interp_t1_c qx qy h00 h01 h11
  · -- second triangle
    split_ifs at hite with hcont
    · have hveq : triHeight (x : ℚ) (y : ℚ)
          (((qx : ℚ), h00, (qy : ℚ)), ((qx : ℚ) + 1, h11, (qy : ℚ) + 1),
            ((qx : ℚ) + 1, h10, (qy : ℚ))) = v := Option.some_inj.mp hite
      have hvert := t2_contains_vertex hcont
      rcases hvert with ⟨hx, hy⟩ | ⟨hx, hy⟩ | ⟨hx, hy⟩
      · have hcx : (x : ℚ) = (qx : ℚ) := by rw [hx]
        have hcy : (y : ℚ) = (qy : ℚ) := by rw [hy]
        rw [hcx, hcy] at hveq
        refine ⟨h00, by rw [hx, hy]; exact e00, ?_⟩
        rw [← hveq]
        exact interp_t2_a qx qy h00 h11 h10
      · have hcx : (x : ℚ) = (qx : ℚ) + 1 := by rw [hx]; push_cast; ring
        have hcy : (y : ℚ) = (qy : ℚ) + 1 := by rw [hy]; push_cast; ring
        rw [hcx, hcy] at hveq
        refine ⟨h11, by rw [hx, hy]; exact e11, ?_⟩
        rw [← hveq]
        exact interp_t2_b qx qy h00 h11 h10
      · have hcx : (x : ℚ) = (qx : ℚ) + 1 := by rw [hx]; push_cast; ring
        have hcy : (y : ℚ) = (qy : ℚ) := by rw [hy]
        rw [hcx, hcy] at hveq
        refine ⟨h10, by rw [hx, hy]; exact e10, ?_⟩
        rw [← hveq]
        exact interp_t2_c qx qy h00 h11 h10

theorem t1_contains_a (qx qy : ℚ) :
    pointInTri qx qy qx qy qx (qy + 1) (qx + 1) (qy + 1) := by
  unfold pointInTri cross2
  right
  refine ⟨by nlinarith, by nlinarith, by nlinarith⟩

theorem t1_contains_b (qx qy : ℚ) :
    pointInTri qx (qy + 1) qx qy qx (qy + 1) (qx + 1) (qy + 1) := by
  unfold pointInTri cross2
  right
  refine ⟨by nlinarith, by nlinarith, by nlinarith⟩

theorem t1_contains_c (qx qy : ℚ) :
    pointInTri (qx + 1) (qy + 1) qx qy qx (qy + 1) (qx + 1) (qy + 1) := by
  unfold pointInTri cross2
  right
  refine ⟨by nlinarith, by nlinarith, by nlinarith⟩

theorem t2_contains_c (qx qy : ℚ) :
    pointInTri (qx + 1) qy qx qy (qx + 1) (qy + 1) (qx + 1) qy := by
  unfold pointInTri cross2
  right
  refine ⟨by nlinarith, by nlinarith, by nlinarith⟩

/-- The decoded height of a corner of a fully-decoded quad is among
the vertical-ray hits through that corner. -/
theorem corner_hit_mem {hf : Shape} {x y qx qy : ℕ} {d : ℚ}
    (hd : getHeightRaw hf x y = some d)
    (hax : x = qx ∨ x = qx + 1) (hay : y = qy ∨ y = qy + 1)
    (hquad : quadTriangles hf qx qy ≠ []) :
    d ∈ quadHits hf (x : ℚ) (y : ℚ) qx qy := by
  unfold quadTriangles at hquad
  unfold quadHits quadTriangles
  cases e00 : getHeightRaw hf qx qy with
  | none => rw [e00] at hquad; exact absurd rfl hquad
  | some h00 =>
  rw [e00] at hquad
  cases e10 : getHeightRaw hf (qx + 1) qy with
  | none => rw [e10] at hquad; exact absurd rfl hquad
  | some h10 =>
  rw [e10] at hquad
  cases e01 : getHeightRaw hf qx (qy + 1) with
  | none => rw [e01] at hquad; exact absurd rfl hquad
  | some h01 =>
  rw [e01] at hquad
  cases e11 : getHeightRaw hf (qx + 1) (qy + 1) with
  | none => rw [e11] at hquad; exact absurd rfl hquad
  | some h11 =>
  rw [e11] at hquad
  rw [List.mem_filterMap]
  have hcx1 : x = qx → (x : ℚ) = (qx : ℚ) := fun hh => by rw [hh]
  have hcx2 : x = qx + 1 → (x : ℚ) = (qx : ℚ) + 1 := fun hh => by rw [hh]; push_cast; ring
  have hcy1 : y = qy → (y : ℚ) = (qy : ℚ) := fun hh => by rw [hh]
  have hcy2 : y = qy + 1 → (y : ℚ) = (qy : ℚ) + 1 := fun hh => by rw [hh]; push_cast; ring
  rcases hax with hx | hx
  · rcases hay with hy | hy
    · -- corner (qx, qy): vertex a of the first triangle
      refine ⟨(((qx : ℚ), h00, (qy : ℚ)), ((qx : ℚ), h01, (qy : ℚ) + 1),
          ((qx : ℚ) + 1, h11, (qy : ℚ) + 1)), by simp, ?_⟩
      rw [hcx1 hx, hcy1 hy]
      rw [if_pos (show triContains (qx : ℚ) (qy : ℚ)
          (((qx : ℚ), h00, (qy : ℚ)), ((qx : ℚ), h01, (qy : ℚ) + 1),
            ((qx : ℚ) + 1, h11, (qy : ℚ) + 1)) from t1_contains_a qx qy)]
      have hd00 : h00 = d := by
        rw [hx, hy] at hd
        exact Option.some_inj.mp (e00.symm.trans hd)
      rw [show triHeight (qx : ℚ) (qy : ℚ)
          (((qx : ℚ), h00, (qy : ℚ)), ((qx : ℚ), h01, (qy : ℚ) + 1),
            ((qx : ℚ) + 1, h11, (qy : ℚ) + 1)) = h00 from interp_t1_a qx qy h00 h01 h11, hd00]
    · -- corner (qx, qy + 1): vertex b of the first triangle
      refine ⟨(((qx : ℚ), h00, (qy : ℚ)), ((qx : ℚ), h01, (qy : ℚ) + 1),
          ((qx : ℚ) + 1, h11, (qy : ℚ) + 1)), by simp, ?_⟩
      rw [hcx1 hx, hcy2 hy]
      rw [if_pos (show triContains (qx : ℚ) ((qy : ℚ) + 1)
          (((qx : ℚ), h00, (qy : ℚ)), ((qx : ℚ), h01, (qy : ℚ) + 1),
            ((qx : ℚ) + 1, h11, (qy : ℚ) + 1)) from t1_contains_b qx qy)]
      have hd01 : h01 = d := by
        rw [hx, hy] at hd
        exact Option.some_inj.mp (e01.symm.trans hd)
      rw [show triHeight (qx : ℚ) ((qy : ℚ) + 1)
          (((qx : ℚ), h00, (qy : ℚ)), ((qx : ℚ), h01, (qy : ℚ) + 1),
            ((qx : ℚ) + 1, h11, (qy : ℚ) + 1)) = h01 from interp_t1_b qx qy h00 h01 h11, hd01]
  · rcases hay with hy | hy
    · -- corner (qx + 1, qy): vertex c of the second triangle
      refine ⟨(((qx : ℚ), h00, (qy : ℚ)), ((qx : ℚ) + 1, h11, (qy : ℚ) + 1),
          ((qx : ℚ) + 1, h10, (qy : ℚ))), by simp, ?_⟩
      rw [hcx2 hx, hcy1 hy]
      rw [if_pos (show triContains ((qx : ℚ) + 1) (qy : ℚ)
          (((qx : ℚ), h00, (qy : ℚ)), ((qx : ℚ) + 1, h11, (qy : ℚ) + 1),
            ((qx : ℚ) + 1, h10, (qy : ℚ))) from t2_contains_c qx qy)]
      have hd10 : h10 = d := by
        rw [hx, hy] at hd
        exact Option.some_inj.mp (e10.symm.trans hd)
      rw [show triHeight ((qx : ℚ) + 1) (qy : ℚ)
          (((qx : ℚ), h00, (qy : ℚ)), ((qx : ℚ) + 1, h11, (qy : ℚ) + 1),
            ((qx : ℚ) + 1, h10, (qy : ℚ))) = h10 from interp_t2_c qx qy h00 h11 h10, hd10]
    · -- corner (qx + 1, qy + 1): vertex c of the first triangle
      refine ⟨(((qx : ℚ), h00, (qy : ℚ)), ((qx : ℚ), h01, (qy : ℚ) + 1),
          ((qx : ℚ) + 1, h11, (qy : ℚ) + 1)), by simp, ?_⟩
      rw [hcx2 hx, hcy2 hy]
      rw [if_pos (show triContains ((qx : ℚ) + 1) ((qy : ℚ) + 1)
          (((qx : ℚ), h00, (qy : ℚ)), ((qx : ℚ), h01, (qy : ℚ) + 1),
            ((qx : ℚ) + 1, h11, (qy : ℚ) + 1)) from t1_contains_c qx qy)]
      have hd11 : h11 = d := by
        rw [hx, hy] at hd
        exact Option.some_inj.mp (e11.symm.trans hd)
      rw [show triHeight ((qx : ℚ) + 1) ((qy : ℚ) + 1)
          (((qx : ℚ), h00, (qy : ℚ)), ((qx : ℚ), h01, (qy : ℚ) + 1),
            ((qx : ℚ) + 1, h11, (qy : ℚ) + 1)) = h11 from interp_t1_c qx qy h00 h01 h11, hd11]

/-- C5 (amended): a vertical downward ray through grid point `(x, y)`
hits, exactly at the decoded height, whenever the sample is non-hole
and at least one quad adjacent to the point is inside the grid and
produces triangles - so the world-space hit point is exactly
`get_position(x, y)`, in particular within `1e-3` of it; through a
hole sample the cast reports no hit. -/
theorem castRayDown_spec (hf : Shape) (x y : ℕ) :
    (∀ d : ℚ, getHeightRaw hf x y = some d →
      (∃ qx qy, (x = qx ∨ x = qx + 1) ∧ (y = qy ∨ y = qy + 1)
          ∧ qx + 1 < hf.n ∧ qy + 1 < hf.n ∧ quadTriangles hf qx qy ≠ []) →
      castRayDown hf (x : ℚ) (y : ℚ) = some d
      ∧ hf.GetPosition x y
          = (hf.offset.1 + hf.scale.1 * x, hf.offset.2.1 + hf.scale.2.1 * d,
             hf.offset.2.2 + hf.scale.2.2 * y)
      ∧ |(hf.offset.2.1 + hf.scale.2.1 * d) - (hf.GetPosition x y).2.1| ≤ 1 / 1000)
    ∧ (getHeightRaw hf x y = none → castRayDown hf (x : ℚ) (y : ℚ) = none) := by
  constructor
  · rintro d hd ⟨qx, qy, hax, hay, hbx, hby, hquad⟩
    have hmem : d ∈ vertRayHits hf (x : ℚ) (y : ℚ) := mem_vertRayHits.mpr
      ⟨qx, List.mem_range.mpr (by omega), qy, List.mem_range.mpr (by omega),
        corner_hit_mem hd hax hay hquad⟩
    have hall : ∀ v ∈ vertRayHits hf (x : ℚ) (y : ℚ), v = d := by
      intro v hv
      obtain ⟨qx2, _, qy2, _, hq⟩ := mem_vertRayHits.mp hv
      obtain ⟨dv, hdv, hveq⟩ := quadHits_val hq
      rw [hd] at hdv
      rw [hveq]
      exact (Option.some_inj.mp hdv).symm
    have hne : vertRayHits hf (x : ℚ) (y : ℚ) ≠ [] := by
      intro hnil
      rw [hnil] at hmem
      exact List.not_mem_nil d hmem
    refine ⟨listMax_all_eq hne hall, ?_, ?_⟩
    · unfold Shape.GetPosition
      rw [hd]
      rfl
    · unfold Shape.GetPosition
      rw [hd]
      simp
  · intro hnone
    have hempty : vertRayHits hf (x : ℚ) (y : ℚ) = [] := by
      rw [List.eq_nil_iff_forall_not_mem]
      intro v hv
      obtain ⟨qx2, _, qy2, _, hq⟩ := mem_vertRayHits.mp hv
      obtain ⟨dv, hdv, _⟩ := quadHits_val hq
      rw [hnone] at hdv
      exact Option.noConfusion hdv
    unfold castRayDown
    rw [hempty]
    rfl

/-- Witness for the amended C5 at a concrete flat shape, hitting the
sample `(0, 0)` exactly. -/
theorem castRayDown_spec_witness :
    getHeightRaw (build c7FlatSettings) 0 0 = some 5
    ∧ (∃ qx qy, ((0 : ℕ) = qx ∨ (0 : ℕ) = qx + 1) ∧ ((0 : ℕ) = qy ∨ (0 : ℕ) = qy + 1)
        ∧ qx + 1 < (build c7FlatSettings).n ∧ qy + 1 < (build c7FlatSettings).n
        ∧ quadTriangles (build c7FlatSettings) qx qy ≠ [])
    ∧ castRayDown (build c7FlatSettings) ((0 : ℕ) : ℚ) ((0 : ℕ) : ℚ) = some 5 :=
  have hd : getHeightRaw (build c7FlatSettings) 0 0 = some 5 := by decide
  have hadj : ∃ qx qy, ((0 : ℕ) = qx ∨ (0 : ℕ) = qx + 1) ∧ ((0 : ℕ) = qy ∨ (0 : ℕ) = qy + 1)
      ∧ qx + 1 < (build c7FlatSettings).n ∧ qy + 1 < (build c7FlatSettings).n
      ∧ quadTriangles (build c7FlatSettings) qx qy ≠ [] :=
    ⟨0, 0, Or.inl rfl, Or.inl rfl, by decide, by decide, by decide⟩
  ⟨hd, hadj, ((castRayDown_spec (build c7FlatSettings) 0 0).1 5 hd hadj).1⟩

/-- A flat 5×5 grid whose holes sit at the four diagonal neighbours of
the interior sample `(2, 2)`, so every quad adjacent to `(2, 2)` has a
hole corner. -/
def cexSettings : ShapeSettings :=
  { sampleCount := 5, blockSize := 2, bitsPerSample := 1, offset := (0, 0, 0),
    scale := (1, 1, 1),
    heightSamples :=
      [some 1, some 1, some 1, some 1, some 1,
       some 1, none, some 1, none, some 1,
       some 1, some 1, some 1, some 1, some 1,
       some 1, none, some 1, none, some 1,
       some 1, some 1, some 1, some 1, some 1],
    materials := [], materialIndices := [] }

/-- Counterexample to C5 as stated: the sample `(2, 2)` of this shape
is non-hole and interior (away from the outer border of the 5×5 grid),
yet the vertical ray through it reports no hit, because every adjacent
quad contains a hole corner and so produces no triangles. -/
theorem castRay_interior_nonhole_missed : (build cexSettings).IsNoCollision 2 2 = false
    ∧ 0 < (2 : ℕ) ∧ (2 : ℕ) + 1 < (build cexSettings).n
    ∧ castRayDown (build cexSettings) ((2 : ℕ) : ℚ) ((2 : ℕ) : ℚ) = none := by
  decide

end HeightField
